import Mathlib

/-!
# Verification of the RISE Glossary widget (src/rise-glossary.js)

A shallow embedding of the term-matching pass (`processTextNode`), the term
index (`loadTerms` / `updateTerms`), the popup lifecycle (`showPopup` /
`hidePopup`), the placement algorithm (`positionPopup`), the HTML escaper
(`escapeHtml`), and the document scan (`processExistingContent`).

Text being scanned is modelled as a list of tagged characters (`Tok`): the
character content evolves exactly as the JavaScript working string does, and
the tag is ghost provenance recording whether a character is original text
(`plain`), text matched and claimed by the substitution pass of term `k`
(`claimed k`), or part of the placeholder markup injected for term `k`
(`markup k`).
-/

set_option maxHeartbeats 1000000

namespace RiseGlossary

/-- JavaScript's regex word-character class `\w` = `[A-Za-z0-9_]`,
on code points. The `\b` assertion of the pattern
`new RegExp('\\b' + escapedWord + '\\b', flags)` is defined from it. -/
def wordCharN (n : Nat) : Bool :=
  (65 ≤ n && n ≤ 90) || (97 ≤ n && n ≤ 122) || (48 ≤ n && n ≤ 57) || n == 95

def wordChar (c : Char) : Bool := wordCharN c.toNat

/-- ASCII case folding on code points: the effect of the regex `i` flag on
the ASCII characters involved in `\w`-based matching. -/
def asciiLowerN (n : Nat) : Nat := if 65 ≤ n && n ≤ 90 then n + 32 else n

/-- Character comparison under the regex flags built in `processTextNode`
(line 368): `'g'` (`cs = true`) compares exactly, `'gi'` folds case. -/
def charMatch (cs : Bool) (a b : Char) : Bool :=
  if cs then a == b else asciiLowerN a.toNat == asciiLowerN b.toNat

/-- Ghost provenance of a character of the working string. -/
inductive Tag where
  | plain : Tag
  | claimed : Nat → Tag
  | markup : Nat → Tag
deriving DecidableEq, Repr

/-- One character of the working string together with its provenance. -/
structure Tok where
  c : Char
  tag : Tag
deriving DecidableEq, Repr

def isMarkupTag : Tag → Bool
  | Tag.markup _ => true
  | _ => false

def isClaimedTag : Tag → Bool
  | Tag.claimed _ => true
  | _ => false

def strToks (k : Nat) (s : String) : List Tok :=
  s.toList.map (fun c => ⟨c, Tag.markup k⟩)

/-- The markup `processTextNode` (line 375) injects in front of a match of
term number `k`: `<span class="glossary-term-placeholder" data-term-id="ID">`. -/
def openMarkup (k : Nat) (id : List Char) : List Tok :=
  strToks k "<span class=\"glossary-term-placeholder\" data-term-id=\"" ++
    id.map (fun c => ⟨c, Tag.markup k⟩) ++ strToks k "\">"

/-- The closing markup `</span>` of the placeholder. -/
def closeMarkup (k : Nat) : List Tok := strToks k "</span>"

def isWordOpt : Option Char → Bool
  | none => false
  | some c => wordChar c

/-- The regex `\b` assertion between two neighbouring characters
(`none` at the ends of the string). -/
def boundary (a b : Option Char) : Bool := isWordOpt a != isWordOpt b

def headChar (t : List Tok) : Option Char := t.head?.map Tok.c

/-- The literal characters of the (regex-escaped, hence literal) word
match the text here. -/
def matchesHere (cs : Bool) : List Char → List Tok → Bool
  | [], _ => true
  | _ :: _, [] => false
  | a :: as, b :: bs => charMatch cs a b.c && matchesHere cs as bs

/-- Last character of the would-be match at the head of `t` (the character
before the closing `\b`); for the empty word this is the previous character. -/
def lastCharOfMatch (pre : Option Char) (w : List Char) (t : List Tok) : Option Char :=
  if w.isEmpty then pre else ((t.take w.length).getLast?).map Tok.c

/-- `new RegExp('\\b' + escapeRegExp(word) + '\\b', flags)` matches at the
head of `t`, where `pre` is the character just before `t` in the working
string. `escapeRegExp` (line 658) makes the word match literally. -/
def wordAt (cs : Bool) (w : List Char) (pre : Option Char) (t : List Tok) : Bool :=
  boundary pre (headChar t) && matchesHere cs w t &&
    boundary (lastCharOfMatch pre w t) (headChar (t.drop w.length))

/-- A match found by one substitution pass: the provenance tag of the
character at which the match starts (`none` for an empty match at the very
end of the string) and its length. -/
structure MRec where
  startTag : Option Tag
  len : Nat
deriving DecidableEq, Repr

/-- Matched text becomes the body of the new placeholder of term `j`. -/
def retag (j : Nat) (ts : List Tok) : List Tok :=
  ts.map (fun x => ⟨x.c, Tag.claimed j⟩)

/-- One global-replace pass (line 374,
`content.replace(regex, m => '<span ...>' + m + '</span>')`) of the
word-boundary-anchored regex of term number `j` over the working string:
scans left to right, wraps every match in the placeholder markup, and after
a match resumes right after it (after an empty match, advances one
character, as JavaScript's `AdvanceStringIndex` does).  Also returns the
list of matches found, with the ghost tag at each match start. -/
def substRunF (cs : Bool) (j : Nat) (id : List Char) (w : List Char) :
    Nat → Option Char → List Tok → List Tok × List MRec
  | 0, _, t => (t, [])
  | _ + 1, pre, [] =>
    if w.isEmpty && boundary pre none then
      (openMarkup j id ++ closeMarkup j, [⟨none, 0⟩])
    else ([], [])
  | fuel + 1, pre, b :: bs =>
    if wordAt cs w pre (b :: bs) then
      if w.isEmpty then
        let r := substRunF cs j id w fuel (some b.c) bs
        (openMarkup j id ++ closeMarkup j ++ b :: r.1, ⟨some b.tag, 0⟩ :: r.2)
      else
        let r := substRunF cs j id w fuel (lastCharOfMatch pre w (b :: bs))
          ((b :: bs).drop w.length)
        (openMarkup j id ++ retag j ((b :: bs).take w.length) ++ closeMarkup j ++ r.1,
          ⟨some b.tag, w.length⟩ :: r.2)
    else
      let r := substRunF cs j id w fuel (some b.c) bs
      (b :: r.1, r.2)

/-- The pass with enough fuel for its input: every step either finishes or
consumes at least one character of the working string. -/
def substRun (cs : Bool) (j : Nat) (id : List Char) (w : List Char)
    (pre : Option Char) (t : List Tok) : List Tok × List MRec :=
  substRunF cs j id w (t.length + 1) pre t

/-- A glossary term as in the loaded JSON (§6 of the data format):
optional fields are `Option`s; `enabled` and `caseSensitive` are absent or
boolean. -/
structure GTerm where
  id : List Char
  word : List Char
  definition : List Char
  image : Option (List Char)
  link : Option (List Char)
  enabled : Option Bool
  caseSensitive : Option Bool
deriving DecidableEq, Repr

/-- Placement option strings accepted for `popupPosition`. -/
inductive PPos where
  | auto : PPos
  | top : PPos
  | bottom : PPos
  | left : PPos
  | right : PPos
deriving DecidableEq, Repr

/-- The configuration options of the constructor that the embedded
operations consult (lines 17-33). -/
structure Options where
  popupPosition : PPos
  animationDuration : Nat
  caseSensitive : Bool
deriving DecidableEq, Repr

/-- The flags actually built at line 368: `term.caseSensitive ? 'g' : 'gi'`.
A missing field is falsy, so it defaults to case-insensitive; the
configuration option is not consulted. -/
def effCase (t : GTerm) : Bool := t.caseSensitive.getD false

/-- `if (regex.test(content)) content = content.replace(...)`
(lines 372-377): the replacement is applied only when at least one match
exists; otherwise the working string is left untouched. -/
def stepTerm (cs : Bool) (j : Nat) (id w : List Char) (t : List Tok) :
    List Tok × List MRec :=
  let r := substRun cs j id w none t
  if r.2.isEmpty then (t, []) else r

/-- The `for (const term of sortedTerms)` loop of `processTextNode`
(lines 367-378): each term in order runs one substitution pass over the
already-substituted working string.  Matches are returned tagged with the
index of the term that found them.  The options are passed as the
constructor stores them, but the loop itself only reads each term's own
`caseSensitive` field. -/
def runTermsAux (opts : Options) : List GTerm → Nat → List Tok →
    List Tok × List (Nat × MRec)
  | [], _, t => (t, [])
  | term :: rest, k, t =>
    let r := stepTerm (effCase term) k term.id term.word t
    let r2 := runTermsAux opts rest (k + 1) r.1
    (r2.1, r.2.map (fun m => (k, m)) ++ r2.2)

def plainToks (s : List Char) : List Tok := s.map (fun c => ⟨c, Tag.plain⟩)

/-- The whole placeholder-substitution phase of `processTextNode` on one
text node's content. -/
def processTextNodeContent (opts : Options) (terms : List GTerm)
    (text : List Char) : List Tok × List (Nat × MRec) :=
  runTermsAux opts terms 0 (plainToks text)

/-- Modelled from the spec: the spec's claim C5 reads the configuration
option `caseSensitive` as the default matching sensitivity, overridden by a
term's own field.  This effective flag follows the spec's words and is
compared against `effCase`, which the code actually uses. -/
def effCaseSpec (opts : Options) (t : GTerm) : Bool :=
  t.caseSensitive.getD opts.caseSensitive

/-- Modelled from the spec: the matching pass as claim C5 describes it,
identical to `runTermsAux` except that a term without a `caseSensitive`
field inherits the configured default. -/
def runTermsAuxSpec (opts : Options) : List GTerm → Nat → List Tok →
    List Tok × List (Nat × MRec)
  | [], _, t => (t, [])
  | term :: rest, k, t =>
    let r := stepTerm (effCaseSpec opts term) k term.id term.word t
    let r2 := runTermsAuxSpec opts rest (k + 1) r.1
    (r2.1, r.2.map (fun m => (k, m)) ++ r2.2)

/-- Modelled from the spec: `processTextNodeContent` with the spec's
reading of case sensitivity. -/
def processTextNodeContentSpec (opts : Options) (terms : List GTerm)
    (text : List Char) : List Tok × List (Nat × MRec) :=
  runTermsAuxSpec opts terms 0 (plainToks text)

/-- Word length of term number `k` of the list. -/
def wordLenAt (terms : List GTerm) (k : Nat) : Nat :=
  ((terms[k]?).map (fun t => t.word.length)).getD 0

/-- A match of term `k` that starts on a character already claimed by an
earlier, longer term `k0`: the overlap the claim C1 rules out. -/
def violRec (terms : List GTerm) (k : Nat) (m : MRec) : Bool :=
  match m.startTag with
  | some (Tag.claimed k0) =>
    decide (k0 < k) && decide (wordLenAt terms k < wordLenAt terms k0)
  | _ => false

/-- Some match of some later, shorter term starts inside a span claimed by
an earlier, longer term. -/
def overlapViol (opts : Options) (terms : List GTerm) (text : List Char) : Bool :=
  (processTextNodeContent opts terms text).2.any (fun p => violRec terms p.1 p.2)

/-- The non-markup characters of the working string, in order: the raw
character data that the injected placeholder markup delimits. -/
def strip (t : List Tok) : List Char :=
  (t.filter (fun x => !isMarkupTag x.tag)).map Tok.c

/-- No match of any pass started on a character of the injected
placeholder markup. -/
def noMarkupStart (opts : Options) (terms : List GTerm) (text : List Char) : Bool :=
  (processTextNodeContent opts terms text).2.all (fun p => !
    (match p.2.startTag with
     | some (Tag.markup _) => true
     | _ => false))

/-- A word on which matching is well-behaved: non-empty and made of word
characters only. -/
def goodWord (w : List Char) : Bool := !w.isEmpty && w.all wordChar

/-! ## Term indexing: `loadTerms` (lines 64-70) and `updateTerms` (lines 697-704) -/

/-- JavaScript's `Array.prototype.sort` with the comparator
`(a, b) => b.word.length - a.word.length` is specified to be a stable sort
consistent with the comparator: descending word length, equal lengths in
original order.  `insertDesc` places a term before the first element whose
word is not longer, which is exactly that order. -/
def insertDesc (a : GTerm) : List GTerm → List GTerm
  | [] => [a]
  | b :: bs =>
    if b.word.length ≤ a.word.length then a :: b :: bs else b :: insertDesc a bs

/-- The stable descending-by-word-length sort. -/
def sortTermsDesc : List GTerm → List GTerm
  | [] => []
  | a :: as => insertDesc a (sortTermsDesc as)

/-- `term.enabled !== false`. -/
def isEnabled (t : GTerm) : Bool := t.enabled != some false

/-- The term index built by both `loadTerms` and `updateTerms`:
`terms.filter(t => t.enabled !== false).sort((a, b) => b.word.length - a.word.length)`. -/
def indexTerms (terms : List GTerm) : List GTerm :=
  sortTermsDesc (terms.filter isEnabled)

/-! ## Popup lifecycle: `showPopup` (lines 461-490) and `hidePopup` (lines 625-641) -/

/-- Popup-controller state: popup elements are identified by the order of
their creation.  `doc` is the list of popup elements attached to
`document.body`; `activePopup` is the `this.activePopup` reference;
`pending` holds the popups whose `setTimeout` removal (line 631) has been
scheduled but has not fired yet. -/
structure PopupState where
  nextId : Nat
  doc : List Nat
  activePopup : Option Nat
  pending : List Nat
deriving DecidableEq, Repr

def initialPopupState : PopupState := ⟨0, [], none, []⟩

/-- `hidePopup` (lines 625-641): a no-op without an active popup; otherwise
removes the active state, schedules DOM removal after `animationDuration`,
and clears the reference.  The element stays in the document until the
scheduled removal fires. -/
def hidePopup (s : PopupState) : PopupState :=
  match s.activePopup with
  | none => s
  | some e => { s with activePopup := none, pending := s.pending ++ [e] }

/-- `showPopup` (lines 461-490): first calls `hidePopup`, then creates a
new popup element, appends it to the document and records it active. -/
def showPopup (s : PopupState) : PopupState :=
  let s1 := hidePopup s
  { s1 with
    doc := s1.doc ++ [s1.nextId]
    activePopup := some s1.nextId
    nextId := s1.nextId + 1 }

/-- The deferred removal callback (lines 631-635): if the popup is still in
the document (`popup.parentNode`), remove it. -/
def fireRemoval (s : PopupState) (e : Nat) : PopupState :=
  if e ∈ s.pending then
    { s with doc := s.doc.erase e, pending := s.pending.erase e }
  else s

/-- Events the popup controller reacts to: a `showPopup` call, a
`hidePopup` call, or a scheduled removal timer firing. -/
inductive PopupEvent where
  | showEv : PopupEvent
  | hideEv : PopupEvent
  | timerEv : Nat → PopupEvent
deriving DecidableEq, Repr

def popupStep (s : PopupState) : PopupEvent → PopupState
  | PopupEvent.showEv => showPopup s
  | PopupEvent.hideEv => hidePopup s
  | PopupEvent.timerEv e => fireRemoval s e

/-- The state after an arbitrary interleaving of calls and timer firings. -/
def runPopups (evs : List PopupEvent) : PopupState :=
  evs.foldl popupStep initialPopupState

/-! ## Popup placement: `positionPopup` (lines 558-623) -/

/-- The side finally used for placement. -/
inductive Side where
  | top : Side
  | bottom : Side
  | left : Side
  | right : Side
deriving DecidableEq, Repr

/-- `triggerElement.getBoundingClientRect()`: viewport coordinates. -/
structure DOMRect where
  top : ℚ
  bottom : ℚ
  left : ℚ
  right : ℚ
  width : ℚ
  height : ℚ
deriving DecidableEq, Repr

/-- The `auto` placement probe (lines 570-587): available space on each
side of the trigger, preferred in the order bottom, top, right, left, with
bottom as the default fallback. -/
def autoPosition (tr : DOMRect) (pw ph vw vh : ℚ) : Side :=
  let spaceAbove := tr.top
  let spaceBelow := vh - tr.bottom
  let spaceLeft := tr.left
  let spaceRight := vw - tr.right
  if spaceBelow ≥ ph + 10 then Side.bottom
  else if spaceAbove ≥ ph + 10 then Side.top
  else if spaceRight ≥ pw + 10 then Side.right
  else if spaceLeft ≥ pw + 10 then Side.left
  else Side.bottom

/-- Explicit modes skip the probe (line 570 checks `position === 'auto'`). -/
def resolvePosition (opt : PPos) (tr : DOMRect) (pw ph vw vh : ℚ) : Side :=
  match opt with
  | PPos.auto => autoPosition tr pw ph vw vh
  | PPos.top => Side.top
  | PPos.bottom => Side.bottom
  | PPos.left => Side.left
  | PPos.right => Side.right

/-- The `switch (position)` offset formulas (lines 590-607), producing
`(top, left)` in page coordinates (scroll offsets added). -/
def basePosition (side : Side) (tr : DOMRect) (pw ph sx sy : ℚ) : ℚ × ℚ :=
  match side with
  | Side.top => (tr.top + sy - ph - 10, tr.left + sx + tr.width / 2 - pw / 2)
  | Side.bottom => (tr.bottom + sy + 10, tr.left + sx + tr.width / 2 - pw / 2)
  | Side.left => (tr.top + sy + tr.height / 2 - ph / 2, tr.left + sx - pw - 10)
  | Side.right => (tr.top + sy + tr.height / 2 - ph / 2, tr.right + sx + 10)

/-- The viewport boundary checks (lines 610-617), applied in source order:
left low, left high, top low, top high.  Note the horizontal checks compare
page coordinates against viewport extents without the scroll offset, and
the vertical high check uses `viewportHeight + scrollY`. -/
def clampPosition (top left pw ph vw vh sy : ℚ) : ℚ × ℚ :=
  let left1 := if left < 10 then 10 else left
  let left2 := if left1 + pw > vw - 10 then vw - pw - 10 else left1
  let top1 := if top < 10 then 10 else top
  let top2 := if top1 + ph > vh + sy - 10 then vh + sy - ph - 10 else top1
  (top2, left2)

/-- `positionPopup` (lines 558-623): choose the side, compute the base
offsets, clamp.  Returns the final `(top, left)`. -/
def positionPopup (opt : PPos) (tr : DOMRect) (pw ph vw vh sx sy : ℚ) : ℚ × ℚ :=
  let side := resolvePosition opt tr pw ph vw vh
  let base := basePosition side tr pw ph sx sy
  clampPosition base.1 base.2 pw ph vw vh sy

/-- Claim C9's property at a final position: the popup sits at least 10
units inside every edge of the viewport, whose page-coordinate extents are
`[sx, sx + vw] × [sy, sy + vh]`. -/
def insideViewport (top left pw ph vw vh sx sy : ℚ) : Prop :=
  sx + 10 ≤ left ∧ left + pw ≤ sx + vw - 10 ∧
    sy + 10 ≤ top ∧ top + ph ≤ sy + vh - 10

/-! ## HTML escaping: `escapeHtml` (lines 661-665) and `createPopup` (lines 492-521) -/

/-- `escapeHtml` assigns the text to a detached div's `textContent` and
reads back `innerHTML`: the browser serializes text by escaping `&`, `<`
and `>`; quotes are left as they are. -/
def escapeHtml (s : List Char) : List Char :=
  (s.map (fun c =>
    if c = '&' then "&amp;".toList
    else if c = '<' then "&lt;".toList
    else if c = '>' then "&gt;".toList
    else [c])).flatten

/-- The browser's parse of character data back into text: the three
entities `escapeHtml` produces are decoded. -/
def unescapeText : List Char → List Char
  | [] => []
  | '&' :: 'a' :: 'm' :: 'p' :: ';' :: rest => '&' :: unescapeText rest
  | '&' :: 'l' :: 't' :: ';' :: rest => '<' :: unescapeText rest
  | '&' :: 'g' :: 't' :: ';' :: rest => '>' :: unescapeText rest
  | c :: rest => c :: unescapeText rest

/-- The value the browser reads for a double-quoted attribute whose raw
markup between the quotes is `s`: it ends at the first `"`, then entities
are decoded. -/
def attrValue (s : List Char) : List Char := s.takeWhile (fun c => c ≠ '"')

def renderedAttr (s : List Char) : List Char := unescapeText (attrValue s)

/-- The text content the browser's parse of the working string yields
(`tempDiv.innerHTML = content`, line 383): markup characters form tags, and
each maximal run of character data between tags is decoded (the entities
relevant to these theorems; the restoration theorem's hypotheses exclude
other character references from the text).  Placeholder resolution
(lines 386-394) replaces each placeholder element by a marker with the same
text content, and `destroy()` (lines 678-695) unwraps every marker and
normalizes, so the document's final text is exactly this concatenation.
`acc` accumulates the current run in reverse. -/
def unescapeRuns (acc : List Char) : List Tok → List Char
  | [] => unescapeText acc.reverse
  | x :: xs =>
    if isMarkupTag x.tag then unescapeText acc.reverse ++ unescapeRuns [] xs
    else unescapeRuns (x.c :: acc) xs

/-- Text content of a scanned node after `destroy()` restores it: the
browser's parse of the substituted working string, markup dropped and each
text run entity-decoded.  Faithful to the code as long as the injected
markup stays intact: no match rewrites the markup itself, term ids keep the
`data-term-id` attribute well-formed, and the original text contains no
character the parse maps non-identically other than the decoded
entities. -/
def textAfterScan (opts : Options) (terms : List GTerm) (text : List Char) :
    List Char :=
  unescapeRuns [] (processTextNodeContent opts terms text).1

/-- What `createPopup` (lines 492-521) interpolates into the popup's
`innerHTML`: the escaped word and definition in text positions, and, when
present, the escaped image URL into `src="..."` and the escaped link URL
into `href="..."` (double-quoted attribute positions). -/
structure PopupMarkup where
  wordHtml : List Char
  definitionHtml : List Char
  imageAttr : Option (List Char)
  linkAttr : Option (List Char)
deriving DecidableEq, Repr

def createPopup (t : GTerm) : PopupMarkup :=
  ⟨escapeHtml t.word, escapeHtml t.definition,
    t.image.map escapeHtml, t.link.map escapeHtml⟩

/-! ## The document scan: `processExistingContent` (lines 300-344) -/

/-- A text node: its character data and whether it has been added to the
`processedNodes` weak set. -/
structure TextNodeM where
  content : List Char
  inSet : Bool
deriving DecidableEq, Repr

/-- A child of a scanned container: a bare text node, or a `.glossary-term`
marker element (whose inner text node the walker never accepts, since its
parent matches the `.glossary-term` exclude selector). -/
inductive PNode where
  | textN : TextNodeM → PNode
  | marker : List Char → PNode
deriving DecidableEq, Repr

/-- A container element with text children.  `excluded` says the element
(or an ancestor) matches one of the static default exclude selectors
(`script`, `style`, `code`, `pre`, `.glossary-term`, `.glossary-popup`);
`processedAttr` is its `data-glossary-processed` attribute, matched by the
default `[data-glossary-processed]` exclude selector. -/
structure Para where
  excluded : Bool
  processedAttr : Bool
  children : List PNode
deriving DecidableEq, Repr

/-- JavaScript `String.prototype.trim` whitespace (the kinds that occur in
document text). -/
def isWS (c : Char) : Bool := c = ' ' || c = '\t' || c = '\n' || c = '\r'

def trimChars (s : List Char) : List Char :=
  ((s.dropWhile isWS).reverse.dropWhile isWS).reverse

/-- The walker's `acceptNode` filter (lines 308-326): reject nodes already
in `processedNodes`, nodes under excluded parents, and nodes whose trimmed
text is shorter than 2 characters. -/
def acceptNode (p : Para) (n : TextNodeM) : Bool :=
  !n.inSet && !(p.excluded || p.processedAttr) &&
    decide (2 ≤ (trimChars n.content).length)

/-- The fragment built from the substituted working string (lines 380-404):
text between placeholders becomes fresh text nodes (not in the processed
set), each placeholder becomes a `.glossary-term` marker carrying the
matched text. -/
def tokensToNodes : List Tok → List PNode
  | [] => []
  | x :: xs =>
    match h : x.tag with
    | Tag.plain =>
      PNode.textN ⟨((x :: xs).takeWhile (fun y => y.tag = Tag.plain)).map Tok.c, false⟩ ::
        tokensToNodes ((x :: xs).dropWhile (fun y => y.tag = Tag.plain))
    | Tag.markup _ => tokensToNodes xs
    | Tag.claimed k =>
      PNode.marker (((x :: xs).takeWhile (fun y => y.tag = Tag.claimed k)).map Tok.c) ::
        tokensToNodes ((x :: xs).dropWhile (fun y => y.tag = Tag.claimed k))
termination_by t => t.length
decreasing_by
  · simp [List.dropWhile_cons, h]
    exact Nat.lt_succ_of_le ((List.dropWhile_sublist _).length_le)
  · simp only [List.length_cons]; omega
  · simp [List.dropWhile_cons, h]
    exact Nat.lt_succ_of_le ((List.dropWhile_sublist _).length_le)

/-- `processTextNode` (lines 357-409) at the document level: when some term
matched, the node is replaced by the fragment and the caller learns the
parent must be stamped `data-glossary-processed`; when nothing matched the
node stays and is recorded in `processedNodes` (line 408; the replaced
node is also recorded, but it has left the document). -/
def processTextNode (opts : Options) (terms : List GTerm) (n : TextNodeM) :
    Bool × List PNode :=
  let r := processTextNodeContent opts terms n.content
  if r.2.isEmpty then (false, [PNode.textN ⟨n.content, true⟩])
  else (true, tokensToNodes r.1)

/-- One collected child processed against the snapshot state of its
container. -/
def processChild (opts : Options) (terms : List GTerm) (p : Para) (c : PNode) :
    Bool × List PNode :=
  match c with
  | PNode.marker s => (false, [PNode.marker s])
  | PNode.textN n =>
    if acceptNode p n then processTextNode opts terms n
    else (false, [PNode.textN n])

/-- `processExistingContent` on one container: the walker snapshots the
eligible text nodes first (lines 330-334), then each is processed; the
parent's `data-glossary-processed` attribute is set when any child had
matches (line 405). -/
def processPara (opts : Options) (terms : List GTerm) (p : Para) : Para :=
  let results := p.children.map (processChild opts terms p)
  { excluded := p.excluded
    processedAttr := p.processedAttr || results.any (fun r => r.1)
    children := (results.map (fun r => r.2)).flatten }

/-- `processExistingContent` (lines 300-344) over the whole document. -/
def processExistingContent (opts : Options) (terms : List GTerm)
    (doc : List Para) : List Para :=
  doc.map (processPara opts terms)

/-- Number of `.glossary-term` marker elements in the document. -/
def countMarkers (doc : List Para) : Nat :=
  (doc.map (fun p => p.children.countP (fun c =>
    match c with
    | PNode.marker _ => true
    | _ => false))).sum

/-! ## Invariants and sample inputs used by the theorems -/

/-- Last character of `r`, or `pc` when `r` is empty: the character
preceding whatever follows `r` in the working string. -/
def lastCharD (pc : Char) (r : List Tok) : Char :=
  ((r.getLast?).map Tok.c).getD pc

/-- Structural invariant of the working string between substitution
passes, relative to `L`, the word length of each term index, and to the
token just before the string (`none` at the very start).  Claimed spans
occur as complete runs: all word characters, of length exactly the
claiming term's word length, preceded and followed by non-word characters
(the `>` and `<` of the placeholder markup around them); and a
word-character markup token is never preceded by a non-markup token (markup
blocks begin with `<`). -/
inductive Inv (L : Nat → Nat) : Option Tok → List Tok → Prop where
  | nil : ∀ p, Inv L p []
  | uncl : ∀ (p : Option Tok) (b : Tok) (bs : List Tok),
      isClaimedTag b.tag = false →
      (isMarkupTag b.tag = true → wordChar b.c = true →
        ∃ q, p = some q ∧ isMarkupTag q.tag = true) →
      Inv L (some b) bs →
      Inv L p (b :: bs)
  | run : ∀ (q : Tok) (k : Nat) (r : List Tok) (b : Tok) (ts : List Tok) (lt : Tok),
      wordChar q.c = false →
      wordChar b.c = false →
      r ≠ [] →
      r.length = L k →
      (∀ x ∈ r, x.tag = Tag.claimed k ∧ wordChar x.c = true) →
      r.getLast? = some lt →
      Inv L (some lt) (b :: ts) →
      Inv L (some q) (r ++ b :: ts)

/-- Popup-controller invariant: every popup element in the document is
either the tracked active popup or has a deferred removal pending, popup
elements are distinct, and identifiers are below the creation counter. -/
def PopupInv (s : PopupState) : Prop :=
  (∀ e ∈ s.doc, s.activePopup = some e ∨ e ∈ s.pending) ∧
  s.doc.Nodup ∧
  (∀ e ∈ s.doc, e < s.nextId) ∧
  (∀ e ∈ s.pending, e < s.nextId) ∧
  (∀ e, s.activePopup = some e → e < s.nextId)

/-- Sample configuration (the constructor defaults). -/
def sampleOpts : Options := ⟨PPos.auto, 300, false⟩

/-- Sample configuration with the `caseSensitive` option switched on. -/
def sampleOptsCS : Options := ⟨PPos.auto, 300, true⟩

/-- A term with only `id` and `word` populated. -/
def mkTerm (id w : List Char) : GTerm := ⟨id, w, [], none, none, none, none⟩

/-! # Theorems -/

/-! ## C5: the `caseSensitive` option -/

theorem runTermsAux_opts_irrel (terms : List GTerm) :
    ∀ (k : Nat) (t : List Tok) (o o' : Options),
      runTermsAux o terms k t = runTermsAux o' terms k t := by
  induction terms with
  | nil => intro k t o o'; rfl
  | cons term rest ih =>
    intro k t o o'
    simp only [runTermsAux]
    rw [ih (k + 1) (stepTerm (effCase term) k term.id term.word t).1 o o']

theorem effCaseSpec_false (o : Options) (h : o.caseSensitive = false) (t : GTerm) :
    effCaseSpec o t = effCase t := by
  cases t with
  | mk id w d im li en cs => cases cs <;> simp [effCaseSpec, effCase, h]

theorem runTermsAuxSpec_false (o : Options) (h : o.caseSensitive = false)
    (terms : List GTerm) :
    ∀ (k : Nat) (t : List Tok),
      runTermsAuxSpec o terms k t = runTermsAux o terms k t := by
  induction terms with
  | nil => intro k t; rfl
  | cons term rest ih =>
    intro k t
    simp [runTermsAux, runTermsAuxSpec, ih, effCaseSpec_false o h]

/-- C5 (corrected): with the configured option `caseSensitive = true` and a
term `Dog` carrying no `caseSensitive` field, the code still matches the
lower-case text `dog` (one match), while the claimed semantics — term field
overriding the configured default — would match case-sensitively and find
nothing.  The option is simply never consulted by `processTextNode`. -/
theorem caseSensitive_option_ignored_cx :
    (processTextNodeContent sampleOptsCS [mkTerm ['t', '1'] ['D', 'o', 'g']]
        ['d', 'o', 'g']).2.length = 1 ∧
    (processTextNodeContentSpec sampleOptsCS [mkTerm ['t', '1'] ['D', 'o', 'g']]
        ['d', 'o', 'g']).2.length = 0 := by
  decide

/-- C5 (amended): matching is independent of the configuration: a term's own
`caseSensitive` field (defaulting to false, i.e. case-insensitive) alone
determines the flags, so the pass coincides with the spec's reading only
when the configured default is `false`. -/
theorem caseSensitive_term_field_only (o o' : Options) (terms : List GTerm)
    (text : List Char) :
    processTextNodeContent o terms text = processTextNodeContent o' terms text ∧
    processTextNodeContent o terms text =
      processTextNodeContentSpec ⟨o.popupPosition, o.animationDuration, false⟩ terms text := by
  constructor
  · exact runTermsAux_opts_irrel terms 0 (plainToks text) o o'
  · rw [processTextNodeContentSpec, runTermsAuxSpec_false _ rfl,
      processTextNodeContent]
    exact runTermsAux_opts_irrel terms 0 (plainToks text) o _

/-! ## C6: a term whose word is the empty string -/

/-- C6 (code bug): a term with an empty `word` builds the regex `/\b\b/g`,
which matches the empty string at every word boundary: on the text `ab` the
pass records two (empty) matches — at position 0 and at the end — and wraps
each in an empty placeholder, where the spec promises "no matches possible"
for such a term. -/
theorem emptyWord_produces_matches :
    (processTextNodeContent sampleOpts [mkTerm ['t', '1'] []] ['a', 'b']).2.length = 2 ∧
    (processTextNodeContent sampleOpts [mkTerm ['t', '1'] []] ['a', 'b']).1 ≠
      plainToks ['a', 'b'] := by
  decide

/-! ## C8: auto placement preference order -/

/-- C8 (confirmed): in `auto` mode the placement side is chosen in the
order bottom, top, right, left — each accepted exactly when the popup's
extent plus the fixed 10-unit margin fits in the free space on that side —
with bottom as the unconditional fallback. -/
theorem auto_placement_order (tr : DOMRect) (pw ph vw vh : ℚ) :
    (vh - tr.bottom ≥ ph + 10 →
      resolvePosition PPos.auto tr pw ph vw vh = Side.bottom) ∧
    (¬(vh - tr.bottom ≥ ph + 10) → tr.top ≥ ph + 10 →
      resolvePosition PPos.auto tr pw ph vw vh = Side.top) ∧
    (¬(vh - tr.bottom ≥ ph + 10) → ¬(tr.top ≥ ph + 10) → vw - tr.right ≥ pw + 10 →
      resolvePosition PPos.auto tr pw ph vw vh = Side.right) ∧
    (¬(vh - tr.bottom ≥ ph + 10) → ¬(tr.top ≥ ph + 10) → ¬(vw - tr.right ≥ pw + 10) →
      tr.left ≥ pw + 10 →
      resolvePosition PPos.auto tr pw ph vw vh = Side.left) ∧
    (¬(vh - tr.bottom ≥ ph + 10) → ¬(tr.top ≥ ph + 10) → ¬(vw - tr.right ≥ pw + 10) →
      ¬(tr.left ≥ pw + 10) →
      resolvePosition PPos.auto tr pw ph vw vh = Side.bottom) := by
  refine ⟨fun h1 => ?_, fun h1 h2 => ?_, fun h1 h2 h3 => ?_,
    fun h1 h2 h3 h4 => ?_, fun h1 h2 h3 h4 => ?_⟩ <;>
    simp [resolvePosition, autoPosition, *]

/-- Witness for C8 at a concrete geometry: a trigger near the bottom edge
(5 units below, 80 above, popup 50 high) gets placement `top`. -/
theorem auto_placement_order_witness :
    resolvePosition PPos.auto ⟨80, 95, 0, 10, 10, 15⟩ 50 50 800 100 = Side.top :=
  (auto_placement_order ⟨80, 95, 0, 10, 10, 15⟩ 50 50 800 100).2.1
    (by norm_num) (by norm_num)

/-! ## C9: the viewport clamp -/

/-- C9 (corrected): the clamp does not keep the popup 10 units inside every
viewport edge.  Concrete counterexample: a 200-wide popup in a 100-wide
viewport (no scrolling, explicit `bottom` placement at an all-zero trigger
rectangle) ends at `left = -110`, far outside the left inset. -/
theorem clamp_inset_cx :
    (positionPopup PPos.bottom ⟨0, 0, 0, 0, 0, 0⟩ 200 10 100 100 0 0).2 = -110 ∧
    ¬ insideViewport (positionPopup PPos.bottom ⟨0, 0, 0, 0, 0, 0⟩ 200 10 100 100 0 0).1
        (positionPopup PPos.bottom ⟨0, 0, 0, 0, 0, 0⟩ 200 10 100 100 0 0).2
        200 10 100 100 0 0 := by
  constructor
  · norm_num [positionPopup, resolvePosition, basePosition, clampPosition]
  · norm_num [positionPopup, resolvePosition, basePosition, clampPosition,
      insideViewport]

theorem clamp_bounds (t0 l0 pw ph vw vh : ℚ)
    (hw : pw + 20 ≤ vw) (hh : ph + 20 ≤ vh) :
    insideViewport (clampPosition t0 l0 pw ph vw vh 0).1
      (clampPosition t0 l0 pw ph vw vh 0).2 pw ph vw vh 0 0 := by
  simp only [clampPosition, insideViewport]
  split_ifs <;> refine ⟨?_, ?_, ?_, ?_⟩ <;> linarith

/-- C9 (amended): with no scrolling and a popup small enough to fit inside
the viewport with the 10-unit insets (`pw + 20 ≤ vw`, `ph + 20 ≤ vh`), the
clamped position does keep the popup at least 10 units inside every
viewport edge, whatever the mode and geometry; the original claim fails for
larger popups (see the counterexample) and says nothing correct about
scrolled viewports, whose horizontal extent the clamp ignores. -/
theorem clamp_inset_amended (opt : PPos) (tr : DOMRect) (pw ph vw vh : ℚ)
    (hw : pw + 20 ≤ vw) (hh : ph + 20 ≤ vh) :
    insideViewport (positionPopup opt tr pw ph vw vh 0 0).1
      (positionPopup opt tr pw ph vw vh 0 0).2 pw ph vw vh 0 0 := by
  exact clamp_bounds _ _ pw ph vw vh hw hh

/-- Witness for C9 (amended) at a concrete geometry. -/
theorem clamp_inset_amended_witness :
    insideViewport (positionPopup PPos.auto ⟨0, 0, 0, 0, 0, 0⟩ 50 40 100 100 0 0).1
      (positionPopup PPos.auto ⟨0, 0, 0, 0, 0, 0⟩ 50 40 100 100 0 0).2
      50 40 100 100 0 0 :=
  clamp_inset_amended PPos.auto ⟨0, 0, 0, 0, 0, 0⟩ 50 40 100 100
    (by norm_num) (by norm_num)

/-! ## C10: HTML escaping in `createPopup` -/

theorem escapeHtml_cons (c : Char) (s : List Char) :
    escapeHtml (c :: s) =
      (if c = '&' then "&amp;".toList
       else if c = '<' then "&lt;".toList
       else if c = '>' then "&gt;".toList
       else [c]) ++ escapeHtml s := by
  simp [escapeHtml]

theorem unescapeText_cons_ne (c : Char) (l : List Char) (h : c ≠ '&') :
    unescapeText (c :: l) = c :: unescapeText l := by
  rw [unescapeText.eq_def]
  split <;> simp_all

/-- Serializing text and parsing it back is the identity: what `escapeHtml`
produces renders, in a text position, exactly as the raw input. -/
theorem unescape_escapeHtml (s : List Char) : unescapeText (escapeHtml s) = s := by
  induction s with
  | nil => rfl
  | cons c s ih =>
    rw [escapeHtml_cons]
    by_cases h1 : c = '&'
    · subst h1; simpa [unescapeText] using ih
    · by_cases h2 : c = '<'
      · subst h2; simpa [unescapeText] using ih
      · by_cases h3 : c = '>'
        · subst h3; simpa [unescapeText] using ih
        · simp only [if_neg h1, if_neg h2, if_neg h3, List.singleton_append]
          rw [unescapeText_cons_ne c _ h1, ih]

theorem quot_not_mem_escapeHtml (s : List Char) (h : '"' ∉ s) :
    '"' ∉ escapeHtml s := by
  induction s with
  | nil => simp [escapeHtml]
  | cons c s ih =>
    rw [escapeHtml_cons]
    intro hmem
    rcases List.mem_append.mp hmem with hl | hr
    · split_ifs at hl <;> simp_all
    · exact ih (fun hc => h (List.mem_cons_of_mem _ hc)) hr

theorem attrValue_of_no_quot (s : List Char) (h : '"' ∉ s) : attrValue s = s := by
  induction s with
  | nil => rfl
  | cons c s ih =>
    have hc : c ≠ '"' := fun hc => h (hc ▸ List.mem_cons_self _ _)
    have hs : '"' ∉ s := fun hc => h (List.mem_cons_of_mem _ hc)
    simp [attrValue, List.takeWhile_cons, hc] at ih ⊢
    simpa [attrValue] using ih hs

/-- C10 (corrected): an image URL containing a double quote does not render
literally: `escapeHtml` leaves `"` unescaped, the attribute value ends at
it, and the rendered `src` is only the prefix before the quote. -/
theorem attr_escaping_cx :
    ((createPopup ⟨['t'], ['w'], ['d'], some ['a', '"', 'b'], none, none,
        none⟩).imageAttr.map renderedAttr) ≠ some ['a', '"', 'b'] ∧
    ((createPopup ⟨['t'], ['w'], ['d'], some ['a', '"', 'b'], none, none,
        none⟩).imageAttr.map renderedAttr) = some ['a'] := by
  decide

/-- C10 (amended): the word and the definition, interpolated in text
positions, always render exactly as the raw field values; the image and
link URLs, interpolated into double-quoted attribute positions, render as
the raw values only when they contain no double quote — `escapeHtml` does
not escape `"`, so a quote ends the attribute early. -/
theorem createPopup_escaping (t : GTerm) (u v : List Char)
    (himg : t.image = some u) (hq : '"' ∉ u)
    (hlink : t.link = some v) (hqv : '"' ∉ v) :
    unescapeText (createPopup t).wordHtml = t.word ∧
    unescapeText (createPopup t).definitionHtml = t.definition ∧
    (createPopup t).imageAttr.map renderedAttr = some u ∧
    (createPopup t).linkAttr.map renderedAttr = some v := by
  refine ⟨unescape_escapeHtml _, unescape_escapeHtml _, ?_, ?_⟩
  · show ((t.image.map escapeHtml).map renderedAttr) = some u
    rw [himg]
    show some (renderedAttr (escapeHtml u)) = some u
    rw [renderedAttr, attrValue_of_no_quot _ (quot_not_mem_escapeHtml u hq),
      unescape_escapeHtml]
  · show ((t.link.map escapeHtml).map renderedAttr) = some v
    rw [hlink]
    show some (renderedAttr (escapeHtml v)) = some v
    rw [renderedAttr, attrValue_of_no_quot _ (quot_not_mem_escapeHtml v hqv),
      unescape_escapeHtml]

/-- Witness for C10 (amended) at a concrete term. -/
theorem createPopup_escaping_witness :
    unescapeText (createPopup ⟨['t'], ['a', '&', 'b'], ['c', '<', 'd'],
        some ['u'], some ['v'], none, none⟩).wordHtml = ['a', '&', 'b'] := by
  have h := createPopup_escaping
    ⟨['t'], ['a', '&', 'b'], ['c', '<', 'd'], some ['u'], some ['v'], none, none⟩
    ['u'] ['v'] rfl (by decide) rfl (by decide)
  exact h.1

/-! ## C2: the popup lifecycle -/

theorem hidePopup_inv (s : PopupState) (h : PopupInv s) : PopupInv (hidePopup s) := by
  obtain ⟨h1, h2, h3, h4, h5⟩ := h
  cases ha : s.activePopup with
  | none => simpa [hidePopup, ha] using ⟨h1, h2, h3, h4, h5⟩
  | some e =>
    refine ⟨?_, by simpa [hidePopup, ha] using h2, by simpa [hidePopup, ha] using h3,
      ?_, by simp [hidePopup, ha]⟩
    · intro x hx
      simp only [hidePopup, ha] at hx ⊢
      rcases h1 x hx with hact | hpend
      · right; rw [ha] at hact; simp_all
      · right; simp [hpend]
    · intro x hx
      simp only [hidePopup, ha, List.mem_append, List.mem_singleton] at hx
      rcases hx with hx | hx
      · simpa [hidePopup, ha] using h4 x hx
      · subst hx; simpa [hidePopup, ha] using h5 x ha

theorem showPopup_inv (s : PopupState) (h : PopupInv s) : PopupInv (showPopup s) := by
  have h' := hidePopup_inv s h
  obtain ⟨h1, h2, h3, h4, h5⟩ := h'
  have hactive : (hidePopup s).activePopup = none := by
    unfold hidePopup
    cases h6 : s.activePopup <;> simp [h6]
  refine ⟨?_, ?_, ?_, ?_, ?_⟩
  · intro x hx
    simp only [showPopup, List.mem_append, List.mem_singleton] at hx
    rcases hx with hx | hx
    · right
      rcases h1 x hx with hact | hpend
      · rw [hactive] at hact; cases hact
      · simpa [showPopup] using hpend
    · left; simp [showPopup, hx]
  · simp only [showPopup]
    apply List.Nodup.append h2 (List.nodup_singleton _)
    intro x hx hx'
    rw [List.mem_singleton] at hx'
    exact absurd hx' (Nat.ne_of_lt (h3 x hx))
  · intro x hx
    simp only [showPopup, List.mem_append, List.mem_singleton] at hx
    rcases hx with hx | hx
    · exact Nat.lt_succ_of_lt (h3 x hx)
    · simp [showPopup, hx]
  · intro x hx
    simp only [showPopup] at hx
    exact Nat.lt_succ_of_lt (h4 x hx)
  · intro x hx
    simp only [showPopup, Option.some_inj] at hx
    simp [showPopup, ← hx]

theorem fireRemoval_inv (s : PopupState) (e : Nat) (h : PopupInv s) :
    PopupInv (fireRemoval s e) := by
  obtain ⟨h1, h2, h3, h4, h5⟩ := h
  unfold fireRemoval
  split
  · refine ⟨?_, h2.erase e, ?_, ?_, h5⟩
    · intro x hx
      simp only at hx
      have hxd : x ∈ s.doc := (List.erase_sublist _ _).mem hx
      have hxe : x ≠ e := (List.Nodup.mem_erase_iff h2).mp hx |>.1
      rcases h1 x hxd with hact | hpend
      · exact Or.inl hact
      · exact Or.inr ((List.mem_erase_of_ne hxe).mpr hpend)
    · intro x hx
      exact h3 x ((List.erase_sublist _ _).mem hx)
    · intro x hx
      exact h4 x ((List.erase_sublist _ _).mem hx)
  · exact ⟨h1, h2, h3, h4, h5⟩

theorem runPopups_inv (evs : List PopupEvent) : PopupInv (runPopups evs) := by
  have step : ∀ (s : PopupState) (ev : PopupEvent),
      PopupInv s → PopupInv (popupStep s ev) := by
    intro s ev h
    cases ev with
    | showEv => exact showPopup_inv s h
    | hideEv => exact hidePopup_inv s h
    | timerEv e => exact fireRemoval_inv s e h
  have base : PopupInv initialPopupState := by
    refine ⟨?_, ?_, ?_, ?_, ?_⟩ <;> simp [initialPopupState]
  rw [runPopups]
  generalize initialPopupState = s at base ⊢
  induction evs generalizing s with
  | nil => simpa using base
  | cons ev evs ih => exact ih _ (step s ev base)

/-- C2 (corrected): two `showPopup` calls in a row leave two popup elements
in the document at once — `hidePopup` only schedules removal after the
animation duration, it does not remove synchronously. -/
theorem two_popups_coexist_cx :
    ¬ ((runPopups [PopupEvent.showEv, PopupEvent.showEv]).doc.length ≤ 1) := by
  decide

/-- C2 (amended): at most one popup is *tracked* (`activePopup`), and every
popup element in the document other than the tracked one has a deferred
removal pending; a previously shown popup thus stays in the document —
coexisting with the new one — until its removal timer fires. -/
theorem popup_doc_tracked (evs : List PopupEvent) :
    ∀ e ∈ (runPopups evs).doc,
      (runPopups evs).activePopup = some e ∨ e ∈ (runPopups evs).pending :=
  (runPopups_inv evs).1

/-- Witness for C2 (amended): after two shows, the first popup (id 0) is
still in the document and has its removal pending. -/
theorem popup_doc_tracked_witness :
    (runPopups [PopupEvent.showEv, PopupEvent.showEv]).activePopup = some 0 ∨
      0 ∈ (runPopups [PopupEvent.showEv, PopupEvent.showEv]).pending :=
  popup_doc_tracked [PopupEvent.showEv, PopupEvent.showEv] 0 (by decide)

/-! ## C7: the term index -/

theorem mem_insertDesc (a x : GTerm) (l : List GTerm) :
    x ∈ insertDesc a l ↔ x = a ∨ x ∈ l := by
  induction l with
  | nil => simp [insertDesc]
  | cons b bs ih =>
    rw [insertDesc]
    split_ifs with hb
    · simp
    · simp only [List.mem_cons, ih]
      tauto

theorem insertDesc_perm (a : GTerm) (l : List GTerm) :
    (insertDesc a l).Perm (a :: l) := by
  induction l with
  | nil => simp [insertDesc]
  | cons b bs ih =>
    rw [insertDesc]
    split_ifs with hb
    · exact List.Perm.refl _
    · exact (ih.cons b).trans (List.Perm.swap a b bs)

theorem sortTermsDesc_perm (l : List GTerm) : (sortTermsDesc l).Perm l := by
  induction l with
  | nil => simp [sortTermsDesc]
  | cons a as ih =>
    rw [sortTermsDesc]
    exact (insertDesc_perm a (sortTermsDesc as)).trans (ih.cons a)

theorem sorted_insertDesc (a : GTerm) (l : List GTerm)
    (h : l.Pairwise (fun x y => y.word.length ≤ x.word.length)) :
    (insertDesc a l).Pairwise (fun x y => y.word.length ≤ x.word.length) := by
  induction l with
  | nil => simp [insertDesc]
  | cons b bs ih =>
    rw [List.pairwise_cons] at h
    obtain ⟨hb1, hbs⟩ := h
    rw [insertDesc]
    split_ifs with hb
    · refine List.Pairwise.cons ?_ (List.Pairwise.cons hb1 hbs)
      intro y hy
      rcases List.mem_cons.mp hy with hy | hy
      · subst hy; exact hb
      · exact le_trans (hb1 y hy) hb
    · refine List.Pairwise.cons ?_ (ih hbs)
      intro y hy
      rcases (mem_insertDesc a y bs).mp hy with hy | hy
      · subst hy; omega
      · exact hb1 y hy

theorem sorted_sortTermsDesc (l : List GTerm) :
    (sortTermsDesc l).Pairwise (fun x y => y.word.length ≤ x.word.length) := by
  induction l with
  | nil => simp [sortTermsDesc]
  | cons a as ih => exact sorted_insertDesc a _ ih

theorem filter_insertDesc (a : GTerm) (l : List GTerm) (n : Nat) :
    (insertDesc a l).filter (fun t => t.word.length == n) =
      if a.word.length == n then a :: l.filter (fun t => t.word.length == n)
      else l.filter (fun t => t.word.length == n) := by
  induction l with
  | nil => rw [insertDesc]; split_ifs with hpa <;> simp_all [List.filter_cons]
  | cons b bs ih =>
    rw [insertDesc]
    split_ifs with hb hpa hpa
    · simp_all [List.filter_cons]
    · simp_all [List.filter_cons]
    · have hpb : (b.word.length == n) = false := by
        simp only [Nat.beq_eq_true_eq] at hpa
        simp only [beq_eq_false_iff_ne, ne_eq]
        omega
      rw [List.filter_cons, List.filter_cons, ih, if_pos hpa, hpb]
      simp
    · rw [List.filter_cons, List.filter_cons, ih, if_neg hpa]

theorem filter_sortTermsDesc (l : List GTerm) (n : Nat) :
    (sortTermsDesc l).filter (fun t => t.word.length == n) =
      l.filter (fun t => t.word.length == n) := by
  induction l with
  | nil => rfl
  | cons a as ih =>
    rw [sortTermsDesc, filter_insertDesc, List.filter_cons]
    split_ifs with hpa <;> rw [ih]

/-- C7 (confirmed): after indexing (`loadTerms` lines 64-70 and
`updateTerms` lines 697-704), the stored list is a permutation of the terms
whose `enabled` is not `false`, ordered by descending word length, and the
terms of any given word length keep their original relative order (the
stability JavaScript's `Array.prototype.sort` guarantees). -/
theorem indexTerms_ordered (terms : List GTerm) :
    (indexTerms terms).Perm (terms.filter isEnabled) ∧
    (indexTerms terms).Pairwise (fun a b => b.word.length ≤ a.word.length) ∧
    ∀ n, (indexTerms terms).filter (fun t => t.word.length == n) =
      (terms.filter isEnabled).filter (fun t => t.word.length == n) :=
  ⟨sortTermsDesc_perm _, sorted_sortTermsDesc _, fun n => filter_sortTermsDesc _ n⟩

/-! ## C4: idempotence of the document scan -/

theorem acceptNode_false_mono (p p' : Para) (n : TextNodeM)
    (hex : p'.excluded = p.excluded)
    (hattr : p.processedAttr = true → p'.processedAttr = true)
    (h : acceptNode p n = false) : acceptNode p' n = false := by
  unfold acceptNode at h ⊢
  rw [hex]
  cases hin : n.inSet
  · cases hpe : p.excluded
    · cases hpa : p.processedAttr
      · simp_all
      · simp_all
    · simp_all
  · simp_all

theorem processChild_false_parts (opts : Options) (terms : List GTerm) (p : Para)
    (l : List PNode)
    (h : ∀ c ∈ l, processChild opts terms p c = (false, [c])) :
    ((l.map (processChild opts terms p)).any (fun r => r.1) = false) ∧
    ((l.map (processChild opts terms p)).map (fun r => r.2)).flatten = l := by
  induction l with
  | nil => simp
  | cons c cs ih =>
    have hc := h c (List.mem_cons_self c cs)
    have hcs := ih (fun x hx => h x (List.mem_cons_of_mem c hx))
    constructor
    · simp [hc, hcs.1]
    · rw [List.map_cons, hc, List.map_cons, List.flatten_cons, hcs.2,
        List.singleton_append]

theorem processPara_idem (opts : Options) (terms : List GTerm) (p : Para) :
    processPara opts terms (processPara opts terms p) = processPara opts terms p := by
  have hex : (processPara opts terms p).excluded = p.excluded := rfl
  have hattr : p.processedAttr = true → (processPara opts terms p).processedAttr = true := by
    intro h; simp [processPara, h]
  have hkey : ∀ c ∈ (processPara opts terms p).children,
      processChild opts terms (processPara opts terms p) c = (false, [c]) := by
    intro c hc
    simp only [processPara, List.mem_flatten, List.mem_map] at hc
    obtain ⟨sub, ⟨r, ⟨c0, hc0, hr⟩, hsub⟩, hcsub⟩ := hc
    subst hsub
    cases c0 with
    | marker s =>
      rw [processChild] at hr
      subst hr
      simp only [List.mem_singleton] at hcsub
      subst hcsub
      rfl
    | textN n =>
      by_cases hacc : acceptNode p n = true
      · rw [processChild, if_pos hacc] at hr
        rw [processTextNode] at hr
        by_cases hrec : (processTextNodeContent opts terms n.content).2.isEmpty = true
        · rw [if_pos hrec] at hr
          subst hr
          simp only [List.mem_singleton] at hcsub
          subst hcsub
          rw [processChild]
          have : acceptNode (processPara opts terms p) ⟨n.content, true⟩ = false := by
            simp [acceptNode]
          rw [if_neg (by simp [this])]
        · rw [if_neg hrec] at hr
          -- this child matched: the container is stamped processed
          have hattr' : (processPara opts terms p).processedAttr = true := by
            simp only [processPara, Bool.or_eq_true, List.any_eq_true]
            right
            refine ⟨r, List.mem_map.mpr ⟨PNode.textN n, hc0, ?_⟩, ?_⟩
            · rw [processChild, if_pos hacc, processTextNode, if_neg hrec]
              exact hr
            · rw [← hr]
          cases c with
          | marker s => rfl
          | textN m =>
            rw [processChild]
            have : acceptNode (processPara opts terms p) m = false := by
              simp [acceptNode, hattr']
            rw [if_neg (by simp [this])]
      · rw [processChild, if_neg hacc] at hr
        subst hr
        simp only [List.mem_singleton] at hcsub
        subst hcsub
        rw [processChild]
        have : acceptNode (processPara opts terms p) n = false := by
          refine acceptNode_false_mono p _ n hex hattr ?_
          simpa using hacc
        rw [if_neg (by simp [this])]
  obtain ⟨hany, hflat⟩ :=
    processChild_false_parts opts terms (processPara opts terms p)
      (processPara opts terms p).children hkey
  conv_lhs => rw [processPara]
  rw [hany, hflat]
  simp

theorem processExistingContent_idem (opts : Options) (terms : List GTerm)
    (doc : List Para) :
    processExistingContent opts terms (processExistingContent opts terms doc) =
      processExistingContent opts terms doc := by
  simp only [processExistingContent, List.map_map]
  exact List.map_congr_left (fun p _ => processPara_idem opts terms p)

/-- C4 (confirmed): running `processExistingContent` a second time on the
unchanged document changes nothing — in particular it creates no additional
markers.  Every text node the first pass considered is afterwards either in
the `processedNodes` set (scanned, no match), gone from the document
(matched and replaced), or sits under the container the pass stamped
`data-glossary-processed`, which the default `excludeSelectors` reject. -/
theorem scan_idempotent (opts : Options) (terms : List GTerm) (doc : List Para) :
    processExistingContent opts terms (processExistingContent opts terms doc) =
      processExistingContent opts terms doc ∧
    countMarkers (processExistingContent opts terms
        (processExistingContent opts terms doc)) =
      countMarkers (processExistingContent opts terms doc) := by
  refine ⟨processExistingContent_idem opts terms doc, ?_⟩
  rw [processExistingContent_idem opts terms doc]

/-! ## C1 and C3: character and matching facts -/

theorem wordCharN_asciiLowerN (n : Nat) : wordCharN (asciiLowerN n) = wordCharN n := by
  unfold asciiLowerN
  by_cases h : 65 ≤ n ∧ n ≤ 90
  · rw [if_pos (by simp [h.1, h.2])]
    rw [Bool.eq_iff_iff]
    simp only [wordCharN, Bool.or_eq_true, Bool.and_eq_true, decide_eq_true_eq,
      beq_iff_eq]
    omega
  · rw [if_neg (by simpa using h)]

theorem charMatch_wordChar (cs : Bool) (a b : Char) (h : charMatch cs a b = true) :
    wordChar a = wordChar b := by
  unfold charMatch at h
  split at h
  · rw [beq_iff_eq.mp h]
  · have h' := beq_iff_eq.mp h
    unfold wordChar
    rw [← wordCharN_asciiLowerN a.toNat, ← wordCharN_asciiLowerN b.toNat, h']

theorem matchesHere_length (cs : Bool) :
    ∀ (w : List Char) (t : List Tok), matchesHere cs w t = true → w.length ≤ t.length := by
  intro w
  induction w with
  | nil => simp
  | cons a as ih =>
    intro t h
    cases t with
    | nil => simp [matchesHere] at h
    | cons b bs =>
      simp only [matchesHere, Bool.and_eq_true] at h
      simpa using ih bs h.2

theorem matchesHere_wordChar (cs : Bool) :
    ∀ (w : List Char) (t : List Tok), (∀ c ∈ w, wordChar c = true) →
      matchesHere cs w t = true → ∀ x ∈ t.take w.length, wordChar x.c = true := by
  intro w
  induction w with
  | nil => simp
  | cons a as ih =>
    intro t hwc h
    cases t with
    | nil => simp [matchesHere] at h
    | cons b bs =>
      simp only [matchesHere, Bool.and_eq_true] at h
      intro x hx
      rw [List.length_cons, List.take_succ_cons] at hx
      rcases List.mem_cons.mp hx with hx | hx
      · subst hx
        rw [← charMatch_wordChar cs a x.c h.1]
        exact hwc a (List.mem_cons_self a as)
      · exact ih bs (fun c hc => hwc c (List.mem_cons_of_mem a hc)) h.2 x hx

theorem matchesHere_append_drop (cs : Bool) :
    ∀ (r : List Tok) (w : List Char) (X : List Tok),
      matchesHere cs w (r ++ X) = true →
      matchesHere cs (w.drop r.length) X = true := by
  intro r
  induction r with
  | nil => simp
  | cons x r' ih =>
    intro w X h
    cases w with
    | nil => simp [matchesHere]
    | cons a as =>
      simp only [List.cons_append, matchesHere, Bool.and_eq_true] at h
      simpa using ih as X h.2

/-! ### `strip` facts -/

theorem strip_cons (x : Tok) (l : List Tok) :
    strip (x :: l) = if isMarkupTag x.tag then strip l else x.c :: strip l := by
  cases hmk : isMarkupTag x.tag
  · simp [strip, List.filter_cons, hmk]
  · simp [strip, List.filter_cons, hmk]

theorem strip_append (l l' : List Tok) : strip (l ++ l') = strip l ++ strip l' := by
  simp [strip, List.filter_append]

theorem strip_markup (l : List Tok) (h : ∀ x ∈ l, isMarkupTag x.tag = true) :
    strip l = [] := by
  induction l with
  | nil => rfl
  | cons x l ih =>
    rw [strip_cons, if_pos (h x (List.mem_cons_self x l))]
    exact ih (fun y hy => h y (List.mem_cons_of_mem x hy))

theorem strip_nonmarkup (l : List Tok) (h : ∀ x ∈ l, isMarkupTag x.tag = false) :
    strip l = l.map Tok.c := by
  induction l with
  | nil => rfl
  | cons x l ih =>
    rw [strip_cons, if_neg (by simp [h x (List.mem_cons_self x l)]), List.map_cons,
      ih (fun y hy => h y (List.mem_cons_of_mem x hy))]

theorem strip_retag (j : Nat) (l : List Tok) : strip (retag j l) = l.map Tok.c := by
  induction l with
  | nil => rfl
  | cons x l ih =>
    simp only [retag, List.map_cons] at ih ⊢
    rw [strip_cons, if_neg (by simp [isMarkupTag])]
    simpa using ih

theorem strip_plainToks (s : List Char) : strip (plainToks s) = s := by
  induction s with
  | nil => rfl
  | cons c s ih =>
    simp only [plainToks, List.map_cons] at ih ⊢
    rw [strip_cons, if_neg (by simp [isMarkupTag])]
    simpa using ih

/-! ### Markup block facts -/

theorem strToks_markup (k : Nat) (s : String) :
    ∀ x ∈ strToks k s, isMarkupTag x.tag = true := by
  intro x hx
  simp only [strToks, List.mem_map] at hx
  obtain ⟨c, _, rfl⟩ := hx
  rfl

theorem openMarkup_markup (k : Nat) (id : List Char) :
    ∀ x ∈ openMarkup k id, isMarkupTag x.tag = true := by
  intro x hx
  simp only [openMarkup, List.mem_append, List.mem_map] at hx
  rcases hx with (hx | hx) | hx
  · exact strToks_markup k _ x hx
  · obtain ⟨c, _, rfl⟩ := hx; rfl
  · exact strToks_markup k _ x hx

theorem closeMarkup_markup (k : Nat) :
    ∀ x ∈ closeMarkup k, isMarkupTag x.tag = true :=
  fun x hx => strToks_markup k _ x hx

theorem closeMarkup_eq (k : Nat) :
    closeMarkup k = ⟨'<', Tag.markup k⟩ :: strToks k "/span>" := rfl

theorem openMarkup_head (k : Nat) (id : List Char) :
    (openMarkup k id).head? = some ⟨'<', Tag.markup k⟩ := rfl

theorem openMarkup_getLast (k : Nat) (id : List Char) :
    (openMarkup k id).getLast? = some ⟨'>', Tag.markup k⟩ := by
  have hB : (strToks k "\">") ≠ [] := by
    intro hcon
    have h2 : (strToks k "\">").length = 2 := rfl
    rw [hcon] at h2
    simp at h2
  unfold openMarkup
  rw [List.append_assoc, List.getLast?_append_of_ne_nil _
      (fun hcon => hB (List.append_eq_nil.mp hcon).2),
    List.getLast?_append_of_ne_nil _ hB]
  rfl

/-! ### Fuel irrelevance and the recursion equations of `substRun` -/

theorem substRunF_fuel_irrel (cs : Bool) (j : Nat) (id w : List Char) :
    ∀ (f1 : Nat) (t : List Tok) (pre : Option Char) (f2 : Nat),
      t.length < f1 → t.length < f2 →
      substRunF cs j id w f1 pre t = substRunF cs j id w f2 pre t := by
  intro f1
  induction f1 with
  | zero => intro t pre f2 h1; omega
  | succ f ih =>
    intro t pre f2 h1 h2
    cases f2 with
    | zero => omega
    | succ f2' =>
      cases t with
      | nil => rfl
      | cons b bs =>
        simp only [substRunF]
        by_cases hm : wordAt cs w pre (b :: bs) = true
        · rw [if_pos hm, if_pos hm]
          by_cases hw : w.isEmpty = true
          · rw [if_pos hw, if_pos hw,
              ih bs (some b.c) f2' (by simpa using h1) (by simpa using h2)]
          · rw [if_neg hw, if_neg hw]
            have hlen : ((b :: bs).drop w.length).length < f := by
              have : w.length ≠ 0 := by
                simpa [List.isEmpty_iff, List.length_eq_zero] using hw
              simp only [List.length_drop, List.length_cons]
              simp only [List.length_cons] at h1
              omega
            have hlen2 : ((b :: bs).drop w.length).length < f2' := by
              have : w.length ≠ 0 := by
                simpa [List.isEmpty_iff, List.length_eq_zero] using hw
              simp only [List.length_drop, List.length_cons]
              simp only [List.length_cons] at h2
              omega
            rw [ih ((b :: bs).drop w.length) _ f2' hlen hlen2]
        · rw [if_neg hm, if_neg hm,
            ih bs (some b.c) f2' (by simpa using h1) (by simpa using h2)]

theorem substRun_nil (cs : Bool) (j : Nat) (id w : List Char) (pre : Option Char)
    (hw : w ≠ []) : substRun cs j id w pre [] = ([], []) := by
  simp [substRun, substRunF, List.isEmpty_iff, hw]

theorem substRun_cons_nomatch (cs : Bool) (j : Nat) (id w : List Char)
    (pre : Option Char) (b : Tok) (bs : List Tok)
    (hm : wordAt cs w pre (b :: bs) = false) :
    substRun cs j id w pre (b :: bs) =
      ((b :: (substRun cs j id w (some b.c) bs).1),
        (substRun cs j id w (some b.c) bs).2) := by
  show substRunF cs j id w (bs.length + 1 + 1) pre (b :: bs) = _
  simp only [substRunF, hm, Bool.false_eq_true, if_false]
  rfl

theorem substRun_cons_match (cs : Bool) (j : Nat) (id w : List Char)
    (pre : Option Char) (b : Tok) (bs : List Tok)
    (hm : wordAt cs w pre (b :: bs) = true) (hw : w ≠ []) :
    substRun cs j id w pre (b :: bs) =
      (openMarkup j id ++ retag j ((b :: bs).take w.length) ++ closeMarkup j ++
        (substRun cs j id w (lastCharOfMatch pre w (b :: bs))
          ((b :: bs).drop w.length)).1,
        ⟨some b.tag, w.length⟩ ::
          (substRun cs j id w (lastCharOfMatch pre w (b :: bs))
            ((b :: bs).drop w.length)).2) := by
  have hwe : w.isEmpty = false := by simpa [List.isEmpty_iff] using hw
  show substRunF cs j id w (bs.length + 1 + 1) pre (b :: bs) = _
  simp only [substRunF, hm, if_true, hwe, Bool.false_eq_true, if_false]
  rw [substRunF_fuel_irrel cs j id w (bs.length + 1) ((b :: bs).drop w.length) _
    (((b :: bs).drop w.length).length + 1) (by
      have : w.length ≠ 0 := by simpa [List.length_eq_zero] using hw
      simp only [List.length_drop, List.length_cons]
      omega) (by omega)]
  rfl

/-! ### Invariant helper lemmas -/

theorem isMarkup_not_claimed (t : Tag) (h : isMarkupTag t = true) :
    isClaimedTag t = false := by
  cases t <;> simp_all [isMarkupTag, isClaimedTag]

theorem lastCharD_nil (pc : Char) : lastCharD pc [] = pc := rfl

theorem lastCharD_cons (pc : Char) (x : Tok) (r : List Tok) :
    lastCharD pc (x :: r) = lastCharD x.c r := by
  cases r with
  | nil => rfl
  | cons y r' => rfl

theorem lastCharD_of_getLast (x lt : Tok) (r : List Tok)
    (h : (x :: r).getLast? = some lt) : lastCharD x.c r = lt.c := by
  cases r with
  | nil =>
    simp only [List.getLast?_singleton, Option.some_inj] at h
    rw [← h]; rfl
  | cons y r' =>
    have : (x :: y :: r').getLast? = (y :: r').getLast? := rfl
    rw [this] at h
    simp [lastCharD, h]

theorem inv_prepend_markup (L : Nat → Nat) :
    ∀ (l X : List Tok) (p : Option Tok),
      (∀ x ∈ l, isMarkupTag x.tag = true) →
      (∀ x, l.head? = some x → wordChar x.c = true →
        ∃ q, p = some q ∧ isMarkupTag q.tag = true) →
      (l = [] → Inv L p X) →
      (∀ lt, l.getLast? = some lt → Inv L (some lt) X) →
      Inv L p (l ++ X) := by
  intro l
  induction l with
  | nil => intro X p _ _ hnil _; simpa using hnil rfl
  | cons x l' ih =>
    intro X p hall hhead _ hlast
    have hxmk : isMarkupTag x.tag = true := hall x (List.mem_cons_self x l')
    refine Inv.uncl p x (l' ++ X) (isMarkup_not_claimed _ hxmk)
      (fun _ hwc => hhead x rfl hwc) ?_
    refine ih X (some x) (fun y hy => hall y (List.mem_cons_of_mem x hy))
      (fun y _ _ => ⟨x, rfl, hxmk⟩) ?_ ?_
    · intro hl'
      subst hl'
      exact hlast x rfl
    · intro lt hlt
      apply hlast
      cases l' with
      | nil => simp at hlt
      | cons z l'' => exact hlt

theorem inv_retarget (L : Nat → Nat) (t : List Tok) (p : Option Tok) (q' : Tok)
    (h : Inv L p t) (hq1 : wordChar q'.c = false) (hq2 : isMarkupTag q'.tag = true) :
    Inv L (some q') t := by
  cases h with
  | nil => exact Inv.nil _
  | uncl p b bs h1 h2 h3 =>
    exact Inv.uncl _ b bs h1 (fun _ _ => ⟨q', rfl, hq2⟩) h3
  | run q k r b ts lt hq hb hrne hrlen hrprop hlast hrest =>
    exact Inv.run q' k r b ts lt hq1 hb hrne hrlen hrprop hlast hrest

theorem inv_plainToks (L : Nat → Nat) (s : List Char) :
    ∀ p, Inv L p (plainToks s) := by
  induction s with
  | nil => intro p; exact Inv.nil p
  | cons c s ih =>
    intro p
    refine Inv.uncl p ⟨c, Tag.plain⟩ (plainToks s) rfl ?_ (ih _)
    intro hmk
    simp [isMarkupTag] at hmk

/-- Walking a run of word characters from an unclaimed, word-character
predecessor: no claimed token can begin (its predecessor would have to be a
non-word character), and if the predecessor is not markup, no markup token
can begin either (a word-character markup token needs a markup
predecessor). -/
theorem region_walk (L : Nat → Nat) :
    ∀ (n : Nat) (t : List Tok) (pt : Tok),
      Inv L (some pt) t → wordChar pt.c = true → isClaimedTag pt.tag = false →
      (∀ x ∈ t.take n, wordChar x.c = true) →
      ∀ x ∈ t.take n, isClaimedTag x.tag = false ∧
        (isMarkupTag pt.tag = false → isMarkupTag x.tag = false) := by
  intro n
  induction n with
  | zero => simp
  | succ n ih =>
    intro t pt hinv hw hcl hr x hx
    cases hinv with
    | nil => simp at hx
    | uncl p y ys h1 h2 h3 =>
      rw [List.take_succ_cons] at hx hr
      have hyw : wordChar y.c = true := hr y (List.mem_cons_self _ _)
      have hymk : isMarkupTag pt.tag = false → isMarkupTag y.tag = false := by
        intro hptm
        by_contra hym
        obtain ⟨q0, hq0, hq0m⟩ := h2 (by simpa using hym) hyw
        rw [Option.some_inj] at hq0
        rw [← hq0] at hq0m
        rw [hq0m] at hptm
        cases hptm
      rcases List.mem_cons.mp hx with hx | hx
      · subst hx
        exact ⟨h1, hymk⟩
      · have := ih ys y h3 hyw h1
          (fun z hz => hr z (List.mem_cons_of_mem y hz)) x hx
        exact ⟨this.1, fun hptm => this.2 (hymk hptm)⟩
    | run q k r b ts lt hq hb hrne hrlen hrprop hlast hrest =>
      rw [hw] at hq
      cases hq

/-- Peeling an unclaimed region off the front of an invariant string:
the invariant continues after it, from its last token. -/
theorem inv_peel (L : Nat → Nat) :
    ∀ (n : Nat) (t : List Tok) (p : Option Tok),
      Inv L p t → 0 < n → n ≤ t.length →
      (∀ x ∈ t.take n, isClaimedTag x.tag = false) →
      ∃ lt, (t.take n).getLast? = some lt ∧ Inv L (some lt) (t.drop n) := by
  intro n
  induction n with
  | zero => intro t p _ h0; omega
  | succ n ih =>
    intro t p hinv _ hlen hreg
    cases hinv with
    | nil => simp at hlen
    | uncl p y ys h1 h2 h3 =>
      cases n with
      | zero =>
        exact ⟨y, by simp, by simpa using h3⟩
      | succ m =>
        have hlen' : m + 1 ≤ ys.length := by
          simpa using hlen
        obtain ⟨lt, hlt, hrest⟩ := ih ys (some y) h3 (Nat.succ_pos m) hlen'
          (fun z hz => hreg z (by
            rw [List.take_succ_cons]
            exact List.mem_cons_of_mem y hz))
        refine ⟨lt, ?_, by simpa using hrest⟩
        rw [List.take_succ_cons]
        have hne : ys.take (m + 1) ≠ [] := by
          intro hcon
          have := congrArg List.length hcon
          rw [List.length_take_of_le hlen'] at this
          simp at this
        cases hys : ys.take (m + 1) with
        | nil => exact absurd hys hne
        | cons z zs =>
          rw [hys] at hlt
          rw [show (y :: z :: zs).getLast? = (z :: zs).getLast? from rfl]
          exact hlt
    | run q k r b ts lt hq hb hrne hrlen hrprop hlast hrest =>
      exfalso
      cases r with
      | nil => exact hrne rfl
      | cons x r' =>
        have hx : x ∈ ((x :: r') ++ b :: ts).take (n + 1) := by
          rw [List.cons_append, List.take_succ_cons]
          exact List.mem_cons_self _ _
        have := hreg x hx
        have hxcl := (hrprop x (List.mem_cons_self x r')).1
        rw [hxcl] at this
        simp [isClaimedTag] at this

/-- A pass of a non-empty all-word-character word walks straight through a
run of word characters when the preceding character is a word character:
the opening `\b` can never hold there. -/
theorem substRun_push (cs : Bool) (j : Nat) (id w : List Char)
    (hw : w ≠ []) :
    ∀ (r : List Tok) (rest : List Tok) (pc : Char),
      wordChar pc = true → (∀ x ∈ r, wordChar x.c = true) →
      substRun cs j id w (some pc) (r ++ rest) =
        ((r ++ (substRun cs j id w (some (lastCharD pc r)) rest).1),
          (substRun cs j id w (some (lastCharD pc r)) rest).2) := by
  intro r
  induction r with
  | nil =>
    intro rest pc _ _
    simp [lastCharD]
  | cons x r' ih =>
    intro rest pc hpc hr
    have hx : wordChar x.c = true := hr x (List.mem_cons_self x r')
    have hnm : wordAt cs w (some pc) (x :: (r' ++ rest)) = false := by
      unfold wordAt
      have : boundary (some pc) (headChar (x :: (r' ++ rest))) = false := by
        simp [boundary, headChar, isWordOpt, hpc, hx]
      rw [this]
      rfl
    rw [List.cons_append, substRun_cons_nomatch _ _ _ _ _ _ _ hnm,
      ih rest x.c hx (fun y hy => hr y (List.mem_cons_of_mem x hy)),
      lastCharD_cons]
    rfl

/-- A non-empty all-word-character word cannot match at a non-word-character
token. -/
theorem wordAt_false_of_nonword_head (cs : Bool) (w : List Char)
    (pre : Option Char) (b : Tok) (ts : List Tok)
    (hw : w ≠ []) (hwc : ∀ c ∈ w, wordChar c = true)
    (hb : wordChar b.c = false) :
    wordAt cs w pre (b :: ts) = false := by
  cases w with
  | nil => exact absurd rfl hw
  | cons a as =>
    unfold wordAt
    by_cases hmh : matchesHere cs (a :: as) (b :: ts) = true
    · exfalso
      simp only [matchesHere, Bool.and_eq_true] at hmh
      have := charMatch_wordChar cs a b.c hmh.1
      rw [hwc a (List.mem_cons_self a as), hb] at this
      cases this
    · have hmf : matchesHere cs (a :: as) (b :: ts) = false := by
        cases hmm : matchesHere cs (a :: as) (b :: ts)
        · rfl
        · exact absurd hmm hmh
      rw [hmf]
      simp

theorem retag_length (j : Nat) (l : List Tok) : (retag j l).length = l.length := by
  simp [retag]

theorem retag_ne_nil (j : Nat) (l : List Tok) (h : l ≠ []) : retag j l ≠ [] := by
  simpa [retag] using h

theorem retag_prop (j : Nat) (l : List Tok) (hwc : ∀ x ∈ l, wordChar x.c = true) :
    ∀ x ∈ retag j l, x.tag = Tag.claimed j ∧ wordChar x.c = true := by
  intro x hx
  simp only [retag, List.mem_map] at hx
  obtain ⟨y, hy, rfl⟩ := hx
  exact ⟨rfl, hwc y hy⟩

theorem retag_getLast (j : Nat) (l : List Tok) (lt : Tok)
    (h : l.getLast? = some lt) :
    (retag j l).getLast? = some ⟨lt.c, Tag.claimed j⟩ := by
  rw [retag, List.getLast?_map, h]
  rfl

theorem retag_nonmarkup (j : Nat) (l : List Tok) :
    ∀ x ∈ retag j l, isMarkupTag x.tag = false := by
  intro x hx
  simp only [retag, List.mem_map] at hx
  obtain ⟨y, _, rfl⟩ := hx
  rfl

/-- The invariant of the replacement of one match: placeholder markup
around the retagged matched tokens, then the continuation. -/
theorem inv_replacement (L : Nat → Nat) (j : Nat) (id : List Char)
    (matched rest : List Tok) (p p0 : Option Tok) (lt : Tok)
    (hne : matched ≠ [])
    (hlen : matched.length = L j)
    (hwc : ∀ x ∈ matched, wordChar x.c = true)
    (hlast : matched.getLast? = some lt)
    (hrest : Inv L p0 rest) :
    Inv L p (openMarkup j id ++ retag j matched ++ closeMarkup j ++ rest) := by
  rw [List.append_assoc, List.append_assoc]
  apply inv_prepend_markup L (openMarkup j id) _ p (openMarkup_markup j id)
  · intro x hx hwx
    rw [openMarkup_head] at hx
    rw [Option.some_inj] at hx
    rw [← hx] at hwx
    exact absurd hwx (by decide : ¬ wordChar '<' = true)
  · intro hcon
    have := openMarkup_head j id
    rw [hcon] at this
    simp at this
  · intro lt0 hlt0
    rw [openMarkup_getLast] at hlt0
    rw [Option.some_inj] at hlt0
    subst hlt0
    rw [closeMarkup_eq, List.cons_append]
    refine Inv.run ⟨'>', Tag.markup j⟩ j (retag j matched) ⟨'<', Tag.markup j⟩
      (strToks j "/span>" ++ rest) ⟨lt.c, Tag.claimed j⟩
      (by decide : wordChar '>' = false) (by decide : wordChar '<' = false)
      (retag_ne_nil j matched hne) (by rw [retag_length]; exact hlen)
      (retag_prop j matched hwc) (retag_getLast j matched lt hlast) ?_
    refine Inv.uncl _ ⟨'<', Tag.markup j⟩ _ rfl
      (fun _ hwx => absurd hwx (by decide : ¬ wordChar '<' = true)) ?_
    apply inv_prepend_markup L (strToks j "/span>") rest _
      (strToks_markup j _)
    · intro x hx hwx
      rw [show (strToks j "/span>").head? = some ⟨'/', Tag.markup j⟩ from rfl] at hx
      rw [Option.some_inj] at hx
      rw [← hx] at hwx
      exact absurd hwx (by decide : ¬ wordChar '/' = true)
    · intro hcon
      have h2 : (strToks j "/span>").length = 6 := rfl
      rw [hcon] at h2
      simp at h2
    · intro lt1 hlt1
      rw [show (strToks j "/span>").getLast? = some ⟨'>', Tag.markup j⟩ from rfl]
        at hlt1
      rw [Option.some_inj] at hlt1
      subst hlt1
      exact inv_retarget L rest p0 _ hrest (by decide : wordChar '>' = false) rfl

/-- Main invariant of one substitution pass of a non-empty,
all-word-character word: (1) every match that starts on a claimed character
claims a span of exactly the current word's length — never the span of a
longer earlier term; (2) the structural invariant is preserved; (3) when no
match starts on markup, the non-markup characters are preserved. -/
theorem substRun_inv (cs : Bool) (j : Nat) (id w : List Char) (L : Nat → Nat)
    (hw : w ≠ []) (hwc : ∀ c ∈ w, wordChar c = true) (hLj : L j = w.length) :
    ∀ (n : Nat) (t : List Tok), t.length ≤ n → ∀ (p : Option Tok), Inv L p t →
      (∀ m ∈ (substRun cs j id w (p.map Tok.c) t).2, ∀ k0,
          m.startTag = some (Tag.claimed k0) → L k0 = w.length) ∧
      Inv L p (substRun cs j id w (p.map Tok.c) t).1 ∧
      ((∀ m ∈ (substRun cs j id w (p.map Tok.c) t).2,
          ∀ k0, m.startTag ≠ some (Tag.markup k0)) →
        strip (substRun cs j id w (p.map Tok.c) t).1 = strip t) := by
  intro n
  induction n with
  | zero =>
    intro t ht p _
    have ht0 : t = [] := by
      cases t with
      | nil => rfl
      | cons a as => simp at ht
    subst ht0
    rw [substRun_nil _ _ _ _ _ hw]
    exact ⟨by simp, Inv.nil p, fun _ => rfl⟩
  | succ n ih =>
    intro t ht p hinv
    cases hinv with
    | nil =>
      rw [substRun_nil _ _ _ _ _ hw]
      exact ⟨by simp, Inv.nil p, fun _ => rfl⟩
    | uncl p b bs hcl hmk hbs =>
      by_cases hm : wordAt cs w (p.map Tok.c) (b :: bs) = true
      · -- a match at an unclaimed head
        obtain ⟨a, as, rfl⟩ : ∃ a as, w = a :: as := by
          cases w with
          | nil => exact absurd rfl hw
          | cons a as => exact ⟨a, as, rfl⟩
        have hmh : matchesHere cs (a :: as) (b :: bs) = true := by
          unfold wordAt at hm
          simp only [Bool.and_eq_true] at hm
          exact hm.1.2
        have hlenle : (a :: as).length ≤ (b :: bs).length :=
          matchesHere_length cs _ _ hmh
        have hmwc : ∀ x ∈ (b :: bs).take (a :: as).length, wordChar x.c = true :=
          matchesHere_wordChar cs _ _ hwc hmh
        have htake : (b :: bs).take (a :: as).length = b :: bs.take as.length := by
          rw [List.length_cons, List.take_succ_cons]
        have hbw : wordChar b.c = true :=
          hmwc b (by rw [htake]; exact List.mem_cons_self _ _)
        have hreg := region_walk L as.length bs b hbs hbw hcl
          (fun x hx => hmwc x (by rw [htake]; exact List.mem_cons_of_mem b hx))
        have hmcl : ∀ x ∈ (b :: bs).take (a :: as).length,
            isClaimedTag x.tag = false := by
          intro x hx
          rw [htake] at hx
          rcases List.mem_cons.mp hx with hx | hx
          · subst hx; exact hcl
          · exact (hreg x hx).1
        obtain ⟨lt', hlt', hinvRest⟩ := inv_peel L (a :: as).length (b :: bs) p
          (Inv.uncl p b bs hcl hmk hbs) (by simp) hlenle hmcl
        have hpre : lastCharOfMatch (p.map Tok.c) (a :: as) (b :: bs) =
            some lt'.c := by
          unfold lastCharOfMatch
          rw [if_neg (by simp), hlt']
          rfl
        rw [substRun_cons_match _ _ _ _ _ _ _ hm hw, hpre]
        have hlrest : ((b :: bs).drop (a :: as).length).length ≤ n := by
          simp only [List.length_drop, List.length_cons] at *
          omega
        obtain ⟨ihA, ihB, ihC⟩ :=
          ih ((b :: bs).drop (a :: as).length) hlrest (some lt') hinvRest
        have hmap : (some lt').map Tok.c = some lt'.c := rfl
        rw [hmap] at ihA ihB ihC
        refine ⟨?_, ?_, ?_⟩
        · intro m hm' k0 hst
          rcases List.mem_cons.mp hm' with hm' | hm'
          · subst hm'
            simp only [Option.some_inj] at hst
            rw [hst] at hcl
            simp [isClaimedTag] at hcl
          · exact ihA m hm' k0 hst
        · exact inv_replacement L j id _ _ p (some lt') lt'
            (by rw [htake]; simp)
            (by rw [List.length_take_of_le hlenle, hLj])
            hmwc hlt' ihB
        · intro hnm
          have hbm : isMarkupTag b.tag = false := by
            have hh := hnm ⟨some b.tag, (a :: as).length⟩ (List.mem_cons_self _ _)
            cases hbt : b.tag with
            | markup k0 => exact absurd (by rw [hbt]) (hh k0)
            | plain => rfl
            | claimed k0 => rfl
          have hmnm : ∀ x ∈ (b :: bs).take (a :: as).length,
              isMarkupTag x.tag = false := by
            intro x hx
            rw [htake] at hx
            rcases List.mem_cons.mp hx with hx | hx
            · subst hx; exact hbm
            · exact (hreg x hx).2 hbm
          rw [strip_append, strip_append, strip_append,
            strip_markup _ (openMarkup_markup j id), strip_retag,
            strip_markup _ (closeMarkup_markup j),
            ihC (fun m hm' k0 => hnm m (List.mem_cons_of_mem _ hm') k0)]
          conv_rhs => rw [← List.take_append_drop (a :: as).length (b :: bs)]
          rw [strip_append, strip_nonmarkup _ hmnm]
          simp
      · have hm' : wordAt cs w (p.map Tok.c) (b :: bs) = false := by
          cases hh : wordAt cs w (p.map Tok.c) (b :: bs)
          · rfl
          · exact absurd hh hm
        rw [substRun_cons_nomatch _ _ _ _ _ _ _ hm']
        have hbs_len : bs.length ≤ n := by simpa using ht
        obtain ⟨ihA, ihB, ihC⟩ := ih bs hbs_len (some b) hbs
        have hmap : (some b).map Tok.c = some b.c := rfl
        rw [hmap] at ihA ihB ihC
        refine ⟨ihA, Inv.uncl p b _ hcl hmk ihB, ?_⟩
        intro hnm
        rw [strip_cons, strip_cons, ihC hnm]
    | run q k r b ts lt hq hb hrne hrlen hrprop hlast hrest =>
      obtain ⟨x, r', rfl⟩ : ∃ x r', r = x :: r' := by
        cases r with
        | nil => exact absurd rfl hrne
        | cons x r' => exact ⟨x, r', rfl⟩
      have hmapq : (some q).map Tok.c = some q.c := rfl
      have hx_cl : x.tag = Tag.claimed k ∧ wordChar x.c = true :=
        hrprop x (List.mem_cons_self x r')
      have hr'wc : ∀ y ∈ r', wordChar y.c = true :=
        fun y hy => (hrprop y (List.mem_cons_of_mem x hy)).2
      have hlen_bts : (b :: ts).length ≤ n := by
        have h1 := ht
        rw [List.length_append] at h1
        simp only [List.length_cons] at h1 ⊢
        omega
      by_cases hmm : wordAt cs w (some q.c) (x :: (r' ++ b :: ts)) = true
      · -- a match at the start of the claimed run
        rcases Nat.lt_trichotomy w.length (x :: r').length with hlt | heq | hgt
        · -- the word is shorter than the run: the closing \b fails
          exfalso
          unfold wordAt at hmm
          simp only [Bool.and_eq_true] at hmm
          obtain ⟨⟨_, hM⟩, hB⟩ := hmm
          rw [← List.cons_append] at hM hB
          have htk_ne : (x :: r').take w.length ≠ [] := by
            intro hcon
            have hcl := congrArg List.length hcon
            rw [List.length_take_of_le (le_of_lt hlt)] at hcl
            simp only [List.length_nil, List.length_eq_zero] at hcl
            exact hw hcl
          obtain ⟨y, hy⟩ := Option.isSome_iff_exists.mp
            (List.getLast?_isSome.mpr htk_ne)
          have hy_mem : y ∈ x :: r' :=
            (List.take_sublist _ _).mem (List.mem_of_mem_getLast? hy)
          have hy_wc : wordChar y.c = true := (hrprop y hy_mem).2
          have hdr_ne : (x :: r').drop w.length ≠ [] := by
            intro hcon
            have hcl := congrArg List.length hcon
            rw [List.length_drop] at hcl
            simp only [List.length_nil] at hcl
            omega
          unfold lastCharOfMatch at hB
          rw [if_neg (by simpa [List.isEmpty_iff] using hw),
            List.take_append_of_le_length (le_of_lt hlt), hy,
            List.drop_append_of_le_length (le_of_lt hlt)] at hB
          rw [headChar, List.head?_append_of_ne_nil _ hdr_ne,
            List.head?_drop, List.getElem?_eq_getElem hlt] at hB
          have hz_wc : wordChar ((x :: r')[w.length]).c = true :=
            (hrprop _ (List.getElem_mem hlt)).2
          simp [boundary, isWordOpt, hy_wc, hz_wc] at hB
        · -- equal lengths: a whole-run re-match (a duplicate word)
          have htake3 : (x :: (r' ++ b :: ts)).take w.length = x :: r' := by
            rw [← List.cons_append, List.take_append_of_le_length (le_of_eq heq),
              heq, List.take_length]
          have hdrop3 : (x :: (r' ++ b :: ts)).drop w.length = b :: ts := by
            rw [← List.cons_append, List.drop_append_of_le_length (le_of_eq heq),
              heq, List.drop_length, List.nil_append]
          have hpre3 : lastCharOfMatch (some q.c) w (x :: (r' ++ b :: ts)) =
              some lt.c := by
            unfold lastCharOfMatch
            rw [if_neg (by simpa [List.isEmpty_iff] using hw), htake3, hlast]
            rfl
          rw [hmapq, List.cons_append,
            substRun_cons_match _ _ _ _ _ _ _ hmm hw, htake3, hdrop3, hpre3]
          obtain ⟨ihA, ihB, ihC⟩ := ih (b :: ts) hlen_bts (some lt) hrest
          have hmaplt : (some lt).map Tok.c = some lt.c := rfl
          rw [hmaplt] at ihA ihB ihC
          refine ⟨?_, ?_, ?_⟩
          · intro m hm' k0 hst
            rcases List.mem_cons.mp hm' with hm' | hm'
            · subst hm'
              simp only [Option.some_inj] at hst
              rw [hx_cl.1] at hst
              have hkk : k = k0 := by
                cases hst
                rfl
              rw [← hkk, ← hrlen, ← heq]
            · exact ihA m hm' k0 hst
          · exact inv_replacement L j id (x :: r') _ (some q) (some lt) lt
              (by simp)
              (by rw [← heq, hLj])
              (fun y hy => (hrprop y hy).2) hlast ihB
          · intro hnm
            have hmnm : ∀ y ∈ x :: r', isMarkupTag y.tag = false := by
              intro y hy
              rw [(hrprop y hy).1]
              rfl
            rw [strip_append, strip_append, strip_append,
              strip_markup _ (openMarkup_markup j id), strip_retag,
              strip_markup _ (closeMarkup_markup j),
              ihC (fun m hm' k0 => hnm m (List.mem_cons_of_mem _ hm') k0)]
            conv_rhs => rw [← List.cons_append]
            rw [strip_append, strip_nonmarkup _ hmnm]
            simp
        · -- the word is longer than the run: it would have to match the
          -- non-word character after the run
          exfalso
          unfold wordAt at hmm
          simp only [Bool.and_eq_true] at hmm
          have hM := hmm.1.2
          rw [← List.cons_append] at hM
          have hdropM := matchesHere_append_drop cs (x :: r') w (b :: ts) hM
          obtain ⟨a', as', ha'⟩ : ∃ a' as', w.drop (x :: r').length = a' :: as' := by
            cases hcon : w.drop (x :: r').length with
            | nil =>
              exfalso
              have hcl := congrArg List.length hcon
              rw [List.length_drop] at hcl
              simp only [List.length_nil] at hcl
              omega
            | cons a' as' => exact ⟨_, _, rfl⟩
          rw [ha'] at hdropM
          simp only [matchesHere, Bool.and_eq_true] at hdropM
          have hbw := charMatch_wordChar cs a' b.c hdropM.1
          have ha'w : wordChar a' = true := by
            refine hwc a' ?_
            have : a' ∈ w.drop (x :: r').length := by
              rw [ha']
              exact List.mem_cons_self _ _
            exact List.drop_subset _ _ this
          rw [ha'w, hb] at hbw
          cases hbw
      · -- no match at the run start: the pass walks through the run
        have hmm' : wordAt cs w (some q.c) (x :: (r' ++ b :: ts)) = false := by
          cases hh : wordAt cs w (some q.c) (x :: (r' ++ b :: ts))
          · rfl
          · exact absurd hh hmm
        rw [hmapq, List.cons_append,
          substRun_cons_nomatch _ _ _ _ _ _ _ hmm',
          substRun_push cs j id w hw r' (b :: ts) x.c hx_cl.2 hr'wc,
          lastCharD_of_getLast x lt r' hlast]
        have hnmb : wordAt cs w (some lt.c) (b :: ts) = false :=
          wordAt_false_of_nonword_head cs w _ b ts hw hwc hb
        obtain ⟨ihA, ihB, ihC⟩ := ih (b :: ts) hlen_bts (some lt) hrest
        have hmaplt : (some lt).map Tok.c = some lt.c := rfl
        rw [hmaplt] at ihA ihB ihC
        rw [substRun_cons_nomatch _ _ _ _ _ _ _ hnmb] at ihA ihB ihC ⊢
        refine ⟨?_, ?_, ?_⟩
        · intro m hm' k0 hst
          exact ihA m hm' k0 hst
        · show Inv L (some q) (x :: (r' ++ b ::
            (substRun cs j id w (some b.c) ts).1))
          rw [← List.cons_append]
          exact Inv.run q k (x :: r') b _ lt hq hb (by simp) hrlen hrprop
            hlast ihB
        · intro hnm
          show strip (x :: (r' ++ b :: (substRun cs j id w (some b.c) ts).1)) =
            strip (x :: (r' ++ b :: ts))
          rw [← List.cons_append, ← List.cons_append, strip_append, strip_append]
          have hC := ihC hnm
          rw [hC]

/-- The term loop of `processTextNode` preserves the invariant pass by
pass, provided every word is non-empty and all word characters. -/
theorem runTermsAux_inv (opts : Options) (L : Nat → Nat) :
    ∀ (ts : List GTerm) (k : Nat) (t : List Tok),
      (∀ i (hi : i < ts.length), L (k + i) = ts[i].word.length) →
      (∀ term ∈ ts, goodWord term.word = true) →
      Inv L none t →
      (∀ p ∈ (runTermsAux opts ts k t).2, ∀ k0,
          (p.2).startTag = some (Tag.claimed k0) → L k0 = L p.1) ∧
      Inv L none (runTermsAux opts ts k t).1 ∧
      ((∀ p ∈ (runTermsAux opts ts k t).2, ∀ k0,
          (p.2).startTag ≠ some (Tag.markup k0)) →
        strip (runTermsAux opts ts k t).1 = strip t) := by
  intro ts
  induction ts with
  | nil =>
    intro k t _ _ hinv
    exact ⟨by simp [runTermsAux], by simpa [runTermsAux] using hinv,
      by simp [runTermsAux]⟩
  | cons term rest ihts =>
    intro k t hLagree hgood hinv
    have hgw : goodWord term.word = true := hgood term (List.mem_cons_self _ _)
    have hw : term.word ≠ [] := by
      simp only [goodWord, Bool.and_eq_true, Bool.not_eq_true'] at hgw
      simpa [List.isEmpty_iff] using hgw.1
    have hwc : ∀ c ∈ term.word, wordChar c = true := by
      have := hgw
      simp only [goodWord, Bool.and_eq_true, List.all_eq_true] at this
      exact fun c hc => this.2 c hc
    have hLk : L k = term.word.length := by
      have := hLagree 0 (by simp)
      simpa using this
    obtain ⟨hA, hB, hC⟩ := substRun_inv (effCase term) k term.id term.word L
      hw hwc hLk t.length t le_rfl none hinv
    have hmapn : (none : Option Tok).map Tok.c = (none : Option Char) := rfl
    rw [hmapn] at hA hB hC
    have hLrest : ∀ i (hi : i < rest.length), L (k + 1 + i) = rest[i].word.length := by
      intro i hi
      have := hLagree (i + 1) (by simpa : i + 1 < rest.length + 1)
      rw [show k + (i + 1) = k + 1 + i by omega] at this
      simpa using this
    have hgrest : ∀ term' ∈ rest, goodWord term'.word = true :=
      fun term' h => hgood term' (List.mem_cons_of_mem _ h)
    simp only [runTermsAux, stepTerm]
    cases hrec : (substRun (effCase term) k term.id term.word none t).2.isEmpty
    · -- matches: the pass rewrote the string
      simp only [Bool.false_eq_true, if_false]
      obtain ⟨ihA, ihB, ihC⟩ := ihts (k + 1)
        (substRun (effCase term) k term.id term.word none t).1 hLrest hgrest hB
      refine ⟨?_, ihB, ?_⟩
      · intro p hp k0 hst
        rcases List.mem_append.mp hp with hp | hp
        · obtain ⟨m, hm, rfl⟩ := List.mem_map.mp hp
          have := hA m hm k0 hst
          rw [this, hLk]
        · exact ihA p hp k0 hst
      · intro hnm
        rw [ihC ?_, hC ?_]
        · intro m hm k0
          have := hnm (k, m) (List.mem_append.mpr (Or.inl
            (List.mem_map.mpr ⟨m, hm, rfl⟩))) k0
          exact this
        · intro p hp k0
          exact hnm p (List.mem_append.mpr (Or.inr hp)) k0
    · -- no match: the string is untouched
      rw [if_pos rfl]
      obtain ⟨ihA, ihB, ihC⟩ := ihts (k + 1) t hLrest hgrest hinv
      refine ⟨?_, ihB, ?_⟩
      · intro p hp k0 hst
        simp only [List.map_nil, List.nil_append] at hp
        exact ihA p hp k0 hst
      · intro hnm
        refine ihC ?_
        intro p hp k0
        refine hnm p ?_ k0
        simpa using hp

/-- C1 (corrected, counterexample): with the terms `hot dog` then `dog` on
the text `hot dog`, the longer term claims the whole text, and the later,
shorter term `dog` then matches *inside* the claimed span: the placeholder
markup is not a word-boundary barrier for the inner words of a multi-word
match (` ` and the `<` of `</span>` are word boundaries). -/
theorem overlap_cx :
    overlapViol sampleOpts
      [mkTerm ['t', '1'] "hot dog".toList, mkTerm ['t', '2'] "dog".toList]
      "hot dog".toList = true := by
  decide

/-- C1 (amended): when every term's word is non-empty and made of word
characters only (letters, digits, underscore — e.g. `cat` vs `category`),
no match of a later, shorter term ever starts inside a span claimed by an
earlier, longer term: any whole-word match starting on a claimed character
must cover exactly the claiming term's whole span, which forces equal word
lengths. -/
theorem no_overlap_of_word_chars (opts : Options) (terms : List GTerm)
    (text : List Char) (h : ∀ t ∈ terms, goodWord t.word = true) :
    overlapViol opts terms text = false := by
  obtain ⟨hA, _, _⟩ := runTermsAux_inv opts (wordLenAt terms) terms 0
    (plainToks text)
    (fun i hi => by
      simp [wordLenAt, List.getElem?_eq_getElem hi])
    h (inv_plainToks _ text none)
  unfold overlapViol processTextNodeContent
  rw [List.any_eq_false]
  intro p hp
  unfold violRec
  cases hst : p.2.startTag with
  | none => simp
  | some tag =>
    cases tag with
    | plain => simp
    | markup k0 => simp
    | claimed k0 =>
      have heq := hA p hp k0 hst
      simp [heq]

/-- Witness for C1 (amended) at the spec's own example: `cat` inside
`category` never re-fires. -/
theorem no_overlap_witness :
    overlapViol sampleOpts
      [mkTerm ['t', '1'] "category".toList, mkTerm ['t', '2'] "cat".toList]
      "my category cat".toList = false :=
  no_overlap_of_word_chars sampleOpts _ _ (by decide)

theorem unescapeText_of_no_amp (s : List Char) (h : '&' ∉ s) :
    unescapeText s = s := by
  induction s with
  | nil => rfl
  | cons c cs ih =>
    have hc : c ≠ '&' := fun hcc => h (hcc ▸ List.mem_cons_self c cs)
    rw [unescapeText_cons_ne c cs hc, ih (fun hm => h (List.mem_cons_of_mem _ hm))]

/-- When no text run of the working string contains an ampersand, the
parse's decoding is the identity and the restored text is just the
non-markup characters. -/
theorem unescapeRuns_eq_strip :
    ∀ (t : List Tok) (acc : List Char),
      (∀ c ∈ acc, c ≠ '&') →
      (∀ x ∈ t, isMarkupTag x.tag = false → x.c ≠ '&') →
      unescapeRuns acc t = acc.reverse ++ strip t := by
  intro t
  induction t with
  | nil =>
    intro acc hacc _
    show unescapeText acc.reverse = acc.reverse ++ strip []
    rw [unescapeText_of_no_amp _ (fun hm => hacc '&' (List.mem_reverse.mp hm) rfl)]
    simp [strip]
  | cons x xs ih =>
    intro acc hacc ht
    show (if isMarkupTag x.tag then unescapeText acc.reverse ++ unescapeRuns [] xs
      else unescapeRuns (x.c :: acc) xs) = acc.reverse ++ strip (x :: xs)
    by_cases hmk : isMarkupTag x.tag = true
    · rw [if_pos hmk,
        unescapeText_of_no_amp _ (fun hm => hacc '&' (List.mem_reverse.mp hm) rfl),
        ih [] (by simp) (fun y hy => ht y (List.mem_cons_of_mem x hy)),
        strip_cons, if_pos hmk]
      simp
    · have hmk' : isMarkupTag x.tag = false := by
        cases hh : isMarkupTag x.tag
        · rfl
        · exact absurd hh hmk
      have hxc : x.c ≠ '&' := ht x (List.mem_cons_self x xs) hmk'
      rw [if_neg hmk,
        ih (x.c :: acc)
          (fun c hc => by
            rcases List.mem_cons.mp hc with hc | hc
            · rw [hc]; exact hxc
            · exact hacc c hc)
          (fun y hy => ht y (List.mem_cons_of_mem x hy)),
        strip_cons, if_neg hmk, List.reverse_cons, List.append_assoc]
      rfl

/-- Every claimed character of an invariant working string is a word
character. -/
theorem inv_claimed_wordChar (L : Nat → Nat) (t : List Tok) (p : Option Tok)
    (hinv : Inv L p t) :
    ∀ x ∈ t, isClaimedTag x.tag = true → wordChar x.c = true := by
  induction hinv with
  | nil => simp
  | uncl p b bs h1 h2 h3 ih =>
    intro x hx hcl
    rcases List.mem_cons.mp hx with hx | hx
    · subst hx
      rw [h1] at hcl
      cases hcl
    · exact ih x hx hcl
  | run q k r b ts lt hq hb hrne hrlen hrprop hlast hrest ih =>
    intro x hx hcl
    rcases List.mem_append.mp hx with hx | hx
    · exact (hrprop x hx).2
    · exact ih x hx hcl

/-- A plain-tagged token of a pass's output comes straight from the input
string: substitution only ever inserts markup and claims matched text. -/
theorem substRunF_plain_mem (cs : Bool) (j : Nat) (id w : List Char) :
    ∀ (fuel : Nat) (pre : Option Char) (t : List Tok) (x : Tok),
      x ∈ (substRunF cs j id w fuel pre t).1 → x.tag = Tag.plain → x ∈ t := by
  intro fuel
  induction fuel with
  | zero => intro pre t x hx _; exact hx
  | succ f ih =>
    intro pre t x hx hpl
    have hopen : x ∉ openMarkup j id := by
      intro hm
      have := openMarkup_markup j id x hm
      rw [hpl] at this
      simp [isMarkupTag] at this
    have hclose : x ∉ closeMarkup j := by
      intro hm
      have := closeMarkup_markup j x hm
      rw [hpl] at this
      simp [isMarkupTag] at this
    have hretag : ∀ l : List Tok, x ∉ retag j l := by
      intro l hm
      simp only [retag, List.mem_map] at hm
      obtain ⟨y, _, hy⟩ := hm
      have := congrArg Tok.tag hy
      rw [hpl] at this
      cases this
    cases t with
    | nil =>
      simp only [substRunF] at hx
      by_cases hcond : (w.isEmpty && boundary pre none) = true
      · rw [if_pos hcond] at hx
        rcases List.mem_append.mp hx with hx | hx
        · exact absurd hx hopen
        · exact absurd hx hclose
      · rw [if_neg hcond] at hx
        simp at hx
    | cons b bs =>
      simp only [substRunF] at hx
      by_cases hm : wordAt cs w pre (b :: bs) = true
      · rw [if_pos hm] at hx
        by_cases hwe : w.isEmpty = true
        · rw [if_pos hwe] at hx
          simp only [List.append_assoc, List.mem_append, List.mem_cons] at hx
          rcases hx with hx | hx | hx | hx
          · exact absurd hx hopen
          · exact absurd hx hclose
          · rw [hx]; exact List.mem_cons_self b bs
          · exact List.mem_cons_of_mem b (ih (some b.c) bs x hx hpl)
        · rw [if_neg hwe] at hx
          simp only [List.append_assoc, List.mem_append] at hx
          rcases hx with hx | hx | hx | hx
          · exact absurd hx hopen
          · exact absurd hx (hretag _)
          · exact absurd hx hclose
          · exact List.drop_subset _ _
              (ih (lastCharOfMatch pre w (b :: bs)) ((b :: bs).drop w.length) x hx hpl)
      · rw [if_neg hm] at hx
        rcases List.mem_cons.mp hx with hx | hx
        · rw [hx]; exact List.mem_cons_self b bs
        · exact List.mem_cons_of_mem b (ih (some b.c) bs x hx hpl)

/-- Plain tokens survive the whole term loop unchanged. -/
theorem runTermsAux_plain_mem (opts : Options) :
    ∀ (ts : List GTerm) (k : Nat) (t : List Tok) (x : Tok),
      x ∈ (runTermsAux opts ts k t).1 → x.tag = Tag.plain → x ∈ t := by
  intro ts
  induction ts with
  | nil =>
    intro k t x hx _
    exact hx
  | cons term rest ih =>
    intro k t x hx hpl
    simp only [runTermsAux, stepTerm] at hx
    by_cases hrec : (substRun (effCase term) k term.id term.word none t).2.isEmpty = true
    · rw [if_pos hrec] at hx
      exact ih (k + 1) t x hx hpl
    · rw [if_neg hrec] at hx
      have h1 := ih (k + 1) _ x hx hpl
      exact substRunF_plain_mem (effCase term) k term.id term.word
        (t.length + 1) none t x h1 hpl

/-- C3 (corrected, counterexample): the restored text is the *parsed* text,
and the parse decodes entities.  With the single term `cat` on the text
`cat &amp; dog`, the matched node is rewritten through `innerHTML`, the
literal characters `&amp;` in the surrounding text collapse to `&`, and
`destroy()` restores `cat & dog` — not the original `cat &amp; dog`. -/
theorem destroy_text_cx :
    textAfterScan sampleOpts [mkTerm ['t', '1'] "cat".toList]
        "cat &amp; dog".toList = "cat & dog".toList ∧
    textAfterScan sampleOpts [mkTerm ['t', '1'] "cat".toList]
        "cat &amp; dog".toList ≠ "cat &amp; dog".toList := by
  decide

/-- C3 (amended): scanning then destroying restores the text
character-for-character provided the injected markup stays intact and the
text itself survives the `innerHTML` round trip: (a) every term's word is
non-empty and made of word characters; (b) no match of any pass starts
inside the placeholder markup (no term's word whole-word-matches the
markup's word runs `span`, `class`, `glossary`, `term`, `placeholder`,
`data`, `id` or a term id); (c) every term's id is free of `"`, `<`, `>`
and `&`, so the interpolated `data-term-id="…"` attribute stays well-formed
and none of the markup parses as text; (d) the original text contains no
`<` or `&` (which the parse would reinterpret — see the counterexample) and
no `\r` or null (which the parse normalizes). -/
theorem destroy_restores_text (opts : Options) (terms : List GTerm)
    (text : List Char)
    (hgood : ∀ t ∈ terms, goodWord t.word = true)
    (hmk : noMarkupStart opts terms text = true)
    (hid : ∀ t ∈ terms, ∀ c ∈ t.id, c ≠ '"' ∧ c ≠ '<' ∧ c ≠ '>' ∧ c ≠ '&')
    (hhtml : '<' ∉ text ∧ '&' ∉ text ∧ '\r' ∉ text ∧ '\x00' ∉ text) :
    textAfterScan opts terms text = text := by
  obtain ⟨_, hInv, hC⟩ := runTermsAux_inv opts (wordLenAt terms) terms 0
    (plainToks text)
    (fun i hi => by
      simp [wordLenAt, List.getElem?_eq_getElem hi])
    hgood (inv_plainToks _ text none)
  unfold textAfterScan processTextNodeContent
  rw [unescapeRuns_eq_strip _ [] (by simp) ?noamp, List.reverse_nil,
    List.nil_append, hC ?nomk, strip_plainToks]
  case nomk =>
    unfold noMarkupStart at hmk
    rw [List.all_eq_true] at hmk
    intro p hp k0 hst
    have := hmk p hp
    rw [hst] at this
    simp at this
  case noamp =>
    intro x hx hxm hxc
    by_cases hcl : isClaimedTag x.tag = true
    · have hwcx := inv_claimed_wordChar (wordLenAt terms) _ none hInv x hx hcl
      rw [hxc] at hwcx
      exact absurd hwcx (by decide)
    · have hpl : x.tag = Tag.plain := by
        cases hxt : x.tag with
        | plain => rfl
        | claimed k0 => rw [hxt] at hcl; simp [isClaimedTag] at hcl
        | markup k0 => rw [hxt] at hxm; simp [isMarkupTag] at hxm
      have hmem := runTermsAux_plain_mem opts terms 0 (plainToks text) x hx hpl
      simp only [plainToks, List.mem_map] at hmem
      obtain ⟨c0, hc0, hc0x⟩ := hmem
      have : x.c = c0 := by rw [← hc0x]
      rw [this] at hxc
      rw [hxc] at hc0
      exact hhtml.2.1 hc0

/-- Witness for C3 (amended) at a concrete scan. -/
theorem destroy_restores_text_witness :
    textAfterScan sampleOpts
      [mkTerm ['t', '1'] "category".toList, mkTerm ['t', '2'] "cat".toList]
      "my category cat".toList = "my category cat".toList :=
  destroy_restores_text sampleOpts _ _ (by decide) (by decide) (by decide)
    (by decide)

end RiseGlossary
